import Mathlib

/-!
Redbench: a shallow embedding of `bench.go`.

The development embeds the pieces of `bench.go` that carry the logic of the
benchmark harness:

* `readResp`, the reply decoder that skips `n` replies on a buffered stream;
* `AppendCommand`, the command encoder;
* the parts of `Bench` that are pure computations: the split of the requests
  over the clients and the latency histogram of the final report;
* the worker of one connection, as a step function on its state and on the
  shared counters, with the results of the network calls and of the clock as
  the environment of each batch;
* the end of `Bench`: the report of the errors, the header of the report and
  the exit status.

Conventions of the embedding.

* A byte is a `UInt8`; a Go `string` or `[]byte` is a `List UInt8`.
* The read side of a connection is the list of the bytes that are still to
  arrive; after the last byte the stream reports `io.EOF`.
* Go's `int`, `int64` and `time.Duration` are modelled by `Int`; where the
  source can overflow 64 bits the wrap is explicit (`wrapInt64`).  `int` is
  taken to be 64 bits wide.
* A Go run-time panic is an outcome of its own (`Outcome.panic`).
* Loops that may run for ever take a fuel argument; a result `none` (or a
  `false` completion flag) means that the fuel ran out, never that the code
  returned.
-/

namespace Redbench

/-! ## Definitions -/

/-! ### Client plan (`Bench`, lines 91-108 and 127-131) -/

/-- Requests per client: `rpc := opts.Requests / opts.Clients`.  Go's `/`
on `int` truncates towards zero. -/
def rpc (requests clients : Int) : Int := Int.tdiv requests clients

/-- Extra requests: `rpcex := opts.Requests % opts.Clients`.  Go's `%` takes
the sign of the dividend. -/
def rpcex (requests clients : Int) : Int := Int.tmod requests clients

/-- The value of `crequests` for client `i`: `rpc`, plus `rpcex` for the
last client (`i == opts.Clients-1`). -/
def crequests (requests clients i : Int) : Int :=
  if i = clients - 1 then rpc requests clients + rpcex requests clients
  else rpc requests clients

/-- The sentinel stored in a latency slot whose request did not complete. -/
def sentinel : Int := -1

/-- The list of `crequests` over the clients `0, 1, ..., clients-1`, in the
order of the loop `for i := 0; i < opts.Clients; i++`. -/
def clientPlan (requests clients : Int) : List Int :=
  (List.range clients.toNat).map (fun (i : Nat) => crequests requests clients (i : Int))

/-- The table `durs` after the first loop of `Bench`:
`durs[i] = make([]time.Duration, crequests)` with every slot set to `-1`. -/
def initDurs (requests clients : Int) : List (List Int) :=
  (clientPlan requests clients).map (fun r => List.replicate r.toNat sentinel)

/-! ### Standard-library operations used by `readResp` -/

/-- The errors `readResp` can return. -/
inductive Err where
  /-- The error `io.EOF`: the stream ended. -/
  | eof
  /-- The error `errors.New("invalid server response")`. -/
  | invalidServerResponse
  /-- The error `strconv.ErrSyntax`, wrapped in a `*strconv.NumError`. -/
  | syntaxErr
  /-- The error `strconv.ErrRange`, wrapped in a `*strconv.NumError`. -/
  | rangeErr
  deriving DecidableEq, Repr

/-- How a call ends: it returns `nil`, it returns an error, or the Go
run time panics. -/
inductive Outcome where
  | ok
  | err (e : Err)
  | panic
  deriving DecidableEq, Repr

/-- The message of an error value (`err.Error()`); for the `strconv` errors
the text that follows the `strconv.ParseInt: parsing "...": ` header. -/
def Err.message : Err → String
  | .eof => "EOF"
  | .invalidServerResponse => "invalid server response"
  | .syntaxErr => "invalid syntax"
  | .rangeErr => "value out of range"

/-- The operation `bufio.Reader.ReadBytes('\n')` on the bytes still to arrive:
the line up to and including the first `'\n'` together with the bytes left
unread, or `none` when the stream ends before a `'\n'` (the reader then
reports `io.EOF` and has consumed every byte). -/
def readBytes : List UInt8 → Option (List UInt8 × List UInt8)
  | [] => none
  | c :: cs =>
    if c = 10 then some ([c], cs)
    else
      match readBytes cs with
      | some (line, rest) => some (c :: line, rest)
      | none => none

/-- The digit loop of `strconv.ParseUint(s, 10, 64)`, with `n` the value read
so far.  A byte outside `'0'..'9'` is a syntax error (a letter is a digit
`≥ 10 = base`, an underscore is accepted for base 0 only).  `n ≥ cutoff`
with `cutoff = maxUint64/10 + 1`, or a sum `n*10 + d` that leaves 64 bits, is
a range error, returned at once. -/
def parseUintLoop : List UInt8 → Nat → Except Err Nat
  | [], n => .ok n
  | c :: cs, n =>
    if 48 ≤ c.toNat ∧ c.toNat ≤ 57 then
      if n ≥ (2 ^ 64 - 1) / 10 + 1 then .error .rangeErr
      else if n * 10 + (c.toNat - 48) ≥ 2 ^ 64 then .error .rangeErr
      else parseUintLoop cs (n * 10 + (c.toNat - 48))
    else .error .syntaxErr

/-- The function `strconv.ParseUint(s, 10, 64)`. -/
def ParseUint (s : List UInt8) : Except Err Nat :=
  match s with
  | [] => .error .syntaxErr
  | _ => parseUintLoop s 0

/-- The sign check of `strconv.ParseInt(s, 10, 64)` on the result of
`ParseUint`: a syntax error is returned as it is, a range error or a
magnitude outside `int64` (`un ≥ 2^63` without sign, `un > 2^63` with `-`) is
a range error. -/
def signedOf (neg : Bool) : Except Err Nat → Except Err Int
  | .error .rangeErr => .error .rangeErr
  | .error e => .error e
  | .ok un =>
    if !neg ∧ un ≥ 2 ^ 63 then .error .rangeErr
    else if neg ∧ un > 2 ^ 63 then .error .rangeErr
    else if neg then .ok (-(un : Int)) else .ok (un : Int)

/-- The function `strconv.ParseInt(s, 10, 64)`: an optional sign `+` or `-`
followed by `ParseUint`. -/
def ParseInt (s : List UInt8) : Except Err Int :=
  match s with
  | [] => .error .syntaxErr
  | c :: cs =>
    if c = 43 then signedOf false (ParseUint cs)
    else if c = 45 then signedOf true (ParseUint cs)
    else signedOf false (ParseUint (c :: cs))

/-- Two's-complement wrap of an integer to `int64`. -/
def wrapInt64 (x : Int) : Int := (x + 2 ^ 63) % 2 ^ 64 - 2 ^ 63

/-- The call `io.CopyN(ioutil.Discard, rd, m)`: for `m ≤ 0` nothing is read
and no error is returned (the `LimitedReader` is at its end at once, and
`CopyN` reports an error only when fewer than `m` bytes were written);
otherwise `m` bytes are dropped, or the stream is drained and `io.EOF`
returned when fewer than `m` bytes are left. -/
def CopyN (rd : List UInt8) (m : Int) : Option Err × List UInt8 :=
  if m ≤ 0 then (none, rd)
  else if m.toNat ≤ rd.length then (none, rd.drop m.toNat)
  else (some .eof, [])

/-- The slice `line[1:len(line)-2]`; `none` when the bounds are out of range
(`len(line)-2 < 1`), where Go panics. -/
def lengthField (line : List UInt8) : Option (List UInt8) :=
  if line.length < 3 then none
  else some ((line.drop 1).take (line.length - 3))

/-! ### `readResp` (lines 17-47) -/

/-- The function `readResp(rd, n)` with a fuel argument.  The loop
`for i := 0; i < n; i++` is unrolled one iteration per call: the call returns
`nil` when no iteration is left, otherwise it runs the body once and goes on
with `n - 1`.  The result is the outcome and the bytes left unread; `none`
means that the fuel ran out.

In the array case the value returned by the nested `readResp(rd, int(n))` is
dropped, as on line 43: only a panic of the nested call unwinds through the
caller. -/
def readRespFuel : Nat → List UInt8 → Int → Option (Outcome × List UInt8)
  | 0, _, _ => none
  | fuel + 1, rd, n =>
    if n ≤ 0 then some (.ok, rd)
    else
      match readBytes rd with
      | none => some (.err .eof, [])
      | some (line, rd1) =>
        match line with
        | [] => some (.panic, rd1)
        | c :: _ =>
          if c = 43 ∨ c = 58 ∨ c = 45 then readRespFuel fuel rd1 (n - 1)
          else if c = 36 then
            match lengthField line with
            | none => some (.panic, rd1)
            | some field =>
              match ParseInt field with
              | .error e => some (.err e, rd1)
              | .ok len =>
                if len ≥ 0 then
                  match CopyN rd1 (wrapInt64 (len + 2)) with
                  | (some e, rd2) => some (.err e, rd2)
                  | (none, rd2) => readRespFuel fuel rd2 (n - 1)
                else readRespFuel fuel rd1 (n - 1)
          else if c = 42 then
            match lengthField line with
            | none => some (.panic, rd1)
            | some field =>
              match ParseInt field with
              | .error e => some (.err e, rd1)
              | .ok cnt =>
                match readRespFuel fuel rd1 cnt with
                | none => none
                | some (.panic, rd2) => some (.panic, rd2)
                | some (_, rd2) => readRespFuel fuel rd2 (n - 1)
          else some (.err .invalidServerResponse, rd1)

/-- The function `readResp(rd, n)`: every call consumes a line before it
calls itself again, so a fuel of one more than the number of bytes is
enough (`readResp_returns`). -/
def readResp (rd : List UInt8) (n : Int) : Option (Outcome × List UInt8) :=
  readRespFuel (rd.length + 1) rd n

/-! ### `strconv.AppendInt` and `AppendCommand` (lines 259-273) -/

/-- The ASCII digit of `d < 10`. -/
def digitByte (d : Nat) : UInt8 := UInt8.ofNat (48 + d)

/-- The digit loop of `strconv.FormatUint(u, 10)`: the digits of `u` are
written from the least significant one in front of `acc`.  The fuel bounds
the number of digits. -/
def formatUintFuel : Nat → Nat → List UInt8 → List UInt8
  | 0, _, acc => acc
  | fuel + 1, u, acc =>
    if u < 10 then digitByte u :: acc
    else formatUintFuel fuel (u / 10) (digitByte (u % 10) :: acc)

/-- The decimal digits of `u`, most significant first, without leading
zeros; `0` is written `0`. -/
def formatUint (u : Nat) : List UInt8 := formatUintFuel (u + 1) u []

/-- The string `strconv.FormatInt(i, 10)`: a `-` for a negative number,
then the digits of its magnitude. -/
def formatInt (i : Int) : List UInt8 :=
  if i < 0 then 45 :: formatUint i.natAbs else formatUint i.natAbs

/-- The call `strconv.AppendInt(dst, i, 10)`. -/
def AppendInt (dst : List UInt8) (i : Int) : List UInt8 := dst ++ formatInt i

/-- The body of the loop `for _, arg := range args` of `AppendCommand`. -/
def appendArg (buf : List UInt8) (arg : List UInt8) : List UInt8 :=
  let buf := buf ++ [36]
  let buf := AppendInt buf (arg.length : Int)
  let buf := buf ++ [13, 10]
  let buf := buf ++ arg
  buf ++ [13, 10]

/-- The function `AppendCommand(buf, args...)`. -/
def AppendCommand (buf : List UInt8) (args : List (List UInt8)) : List UInt8 :=
  let buf := buf ++ [42]
  let buf := AppendInt buf (args.length : Int)
  let buf := buf ++ [13, 10]
  args.foldl appendArg buf

/-- The frame the specification describes for one argument: a bulk-string
header with the byte length, the argument bytes, a line terminator. -/
def bulkFrame (arg : List UInt8) : List UInt8 :=
  [36] ++ formatInt (arg.length : Int) ++ [13, 10] ++ arg ++ [13, 10]

/-- The frame the specification describes for a command: an array header
with the argument count, then the bulk frame of each argument in order. -/
def commandFrame (args : List (List UInt8)) : List UInt8 :=
  [42] ++ formatInt (args.length : Int) ++ [13, 10] ++ (args.map bulkFrame).flatten

/-! ### Well-formed replies -/

/-- The proposition `WellFormed k bs`: the bytes `bs` are the concatenation
of `k` well-formed replies.  A reply is a status, error or integer line (a
marker `+`, `-` or `:`, a text without `'\n'`, and `"\r\n"`), a bulk string
(`$`, the payload length in decimal, `"\r\n"`, the payload, `"\r\n"`), the
null bulk string `"$-1\r\n"`, or an array (`*`, the number of elements in
decimal, `"\r\n"`, then that many well-formed replies). -/
inductive WellFormed : Nat → List UInt8 → Prop where
  | none : WellFormed 0 []
  | line (marker : UInt8) (text tail : List UInt8) (k : Nat)
      (hm : marker = 43 ∨ marker = 45 ∨ marker = 58) (ht : (10 : UInt8) ∉ text)
      (htail : WellFormed k tail) :
      WellFormed (k + 1) (marker :: text ++ [13, 10] ++ tail)
  | bulk (payload tail : List UInt8) (k : Nat) (htail : WellFormed k tail) :
      WellFormed (k + 1)
        (36 :: formatInt (payload.length : Int) ++ [13, 10] ++ payload ++ [13, 10] ++ tail)
  | nullBulk (tail : List UInt8) (k : Nat) (htail : WellFormed k tail) :
      WellFormed (k + 1) (36 :: formatInt (-1) ++ [13, 10] ++ tail)
  | array (m : Nat) (items tail : List UInt8) (k : Nat) (hitems : WellFormed m items)
      (htail : WellFormed k tail) :
      WellFormed (k + 1) (42 :: formatInt (m : Int) ++ [13, 10] ++ items ++ tail)

/-! ### The latency histogram of the final report (`Bench`, lines 200-226) -/

/-- The constant `time.Millisecond`, in nanoseconds. -/
def Millisecond : Int := 1000000

/-- The loop `for j := 0; j < len(durs[i]); j++` over one row, on the pair
`(hits, count)`: a slot equal to `-1` is skipped, any other slot is counted,
and it is a hit when `dur < limit`. -/
def scanRow (limit : Int) : List Int → Int × Int → Int × Int
  | [], hc => hc
  | dur :: row, (hits, count) =>
    if dur = -1 then scanRow limit row (hits, count)
    else scanRow limit row (if dur < limit then hits + 1 else hits, count + 1)

/-- The loop `for i := 0; i < len(durs); i++` over the table. -/
def scanTable (limit : Int) : List (List Int) → Int × Int → Int × Int
  | [], hc => hc
  | row :: rows, hc => scanTable limit rows (scanRow limit row hc)

/-- The quotient `float64(hits) / float64(count)`.  A `float64` is modelled
by an exact rational, and by `none` for NaN: the scan gives
`0 ≤ hits ≤ count`, so the only division by zero is `0/0`, which is NaN. -/
def fdiv (hits count : Int) : Option ℚ :=
  if count = 0 then none else some ((hits : ℚ) / (count : ℚ))

/-- The value `per` computed at a threshold `limit`. -/
def perAt (durs : List (List Int)) (limit : Int) : Option ℚ :=
  fdiv (scanTable limit durs (0, 0)).1 (scanTable limit durs (0, 0)).2

/-- The test `math.Floor(per*10000) == math.Floor(lastper*10000)`; a
comparison with NaN is false. -/
def floorEq : Option ℚ → Option ℚ → Bool
  | some p, some q => decide (⌊p * 10000⌋ = ⌊q * 10000⌋)
  | _, _ => false

/-- The test `per == 1.0`. -/
def isOne : Option ℚ → Bool
  | some p => decide (p = 1)
  | none => false

/-- A line `<pct>% <= <ms> milliseconds` of the histogram, before
formatting: `per` is the ratio the line was computed from (`none` for NaN),
so that `pct = per*100`, and `ms = (limit-time.Millisecond)/time.Millisecond`. -/
structure HistLine where
  per : Option ℚ
  ms : Int
  deriving DecidableEq

/-- The percentage `per*100` a line prints. -/
def HistLine.pct (l : HistLine) : Option ℚ := l.per.map (· * 100)

/-- The histogram loop, from a state `(limit, lastper)`, with a fuel that
bounds the number of thresholds tried.  The result is the list of the lines
printed, and whether the loop has ended (`break` on `per == 1.0`) within the
fuel. -/
def histLoop : Nat → List (List Int) → Int → Option ℚ → List HistLine × Bool
  | 0, _, _, _ => ([], false)
  | fuel + 1, durs, limit, lastper =>
    let limit := limit + Millisecond
    let per := perAt durs limit
    if floorEq per lastper then histLoop fuel durs limit lastper
    else
      let line : HistLine := ⟨per, Int.tdiv (limit - Millisecond) Millisecond⟩
      if isOne per then ([line], true)
      else ((histLoop fuel durs limit per).1.cons line, (histLoop fuel durs limit per).2)

/-- The histogram of the final report: the loop from `limit = 0` and
`lastper = 0`. -/
def histogram (fuel : Nat) (durs : List (List Int)) : List HistLine × Bool :=
  histLoop fuel durs 0 (some 0)

/-- The completed latencies of a table: the slots that differ from the
sentinel. -/
def completed (durs : List (List Int)) : List Int :=
  durs.flatten.filter (fun d => d ≠ -1)

/-- The percentage of the completed latencies that are at most `k`
milliseconds; `none` when no request completed. -/
def pctAtMost (durs : List (List Int)) (k : Int) : Option ℚ :=
  if (completed durs).length = 0 then none
  else some (100 * (((completed durs).countP (fun d => d ≤ k * Millisecond) : Nat) : ℚ)
    / ((completed durs).length : ℚ))

/-- The percentage of the completed latencies that are below `k + 1`
milliseconds; `none` when no request completed. -/
def pctBelowNext (durs : List (List Int)) (k : Int) : Option ℚ :=
  if (completed durs).length = 0 then none
  else some (100 * (((completed durs).countP (fun d => d < (k + 1) * Millisecond) : Nat) : ℚ)
    / ((completed durs).length : ℚ))

/-- The fraction of the completed latencies that are below a threshold. -/
def fracBelow (durs : List (List Int)) (limit : Int) : ℚ :=
  (((completed durs).countP (fun d => d < limit) : Nat) : ℚ) / (((completed durs).length : Nat) : ℚ)

/-! ### The worker of one connection (`Bench`, lines 133-174) -/

/-- What the outside world gives one batch of a worker: `bytes` is
`len(buf)` after the `n` calls of `fill`, `writeErr` the error of
`conn.Write(buf)`, `readErr` the error of `readResp(rd, n)` (`none` for
`nil`), `stop` the value of `time.Since(start)` and `since` the value of
`time.Since(tstart)`, both in nanoseconds. -/
structure BatchEnv where
  bytes : Nat
  writeErr : Option Err
  readErr : Option Err
  stop : Int
  since : Int

/-- The shared counters `totalPayload`, `duration`, `count` and `tstop`. -/
structure Shared where
  totalPayload : Int
  duration : Int
  count : Int
  tstop : Int
  deriving DecidableEq

/-- The state of the worker of one client: whether `conn != nil`, the value
of `crequests`, the loop variable `i`, the row `durs[client]`, whether the
goroutine has returned, and the entry `errs[client]`. -/
structure Worker where
  conn : Bool
  crequests : Int
  i : Int
  slots : List Int
  finished : Bool
  err : Option Err
  deriving DecidableEq

/-- The batch size `n`: `opts.Pipeline`, or `crequests - i` when
`i+n > crequests`. -/
def batchSize (pipeline crequests i : Int) : Int :=
  if i + pipeline > crequests then crequests - i else pipeline

/-- The loop `for j := 0; j < n; j++ { durs[client][i+j] = v }`, with `m`
the number of iterations left and `idx` the index `i+j`. -/
def storeSlots (v : Int) : Nat → Nat → List Int → List Int
  | 0, _, slots => slots
  | m + 1, idx, slots => storeSlots v m (idx + 1) (slots.set idx v)

/-- One turn of the worker: the test `conn == nil`, then one test of the
loop condition `i < crequests` and, when it holds, one run of the loop body.
The payload counter is increased before the write; a failing write or a
failing `readResp` ends the worker with the error in `errs[client]`;
otherwise the `n` slots from `i` are set to `stop / n` and the counters
`duration`, `count` and `tstop` are updated.  A worker that has returned
does nothing. -/
def workerStep (pipeline : Int) (b : BatchEnv) (w : Worker) (sh : Shared) : Worker × Shared :=
  if w.finished then (w, sh)
  else if !w.conn then ({ w with finished := true }, sh)
  else if w.i < w.crequests then
    let n := batchSize pipeline w.crequests w.i
    let sh1 : Shared := { sh with totalPayload := sh.totalPayload + (b.bytes : Int) }
    match b.writeErr with
    | some e => ({ w with finished := true, err := some e }, sh1)
    | none =>
      match b.readErr with
      | some e => ({ w with finished := true, err := some e }, sh1)
      | none =>
        ({ w with slots := storeSlots (Int.tdiv b.stop n) n.toNat w.i.toNat w.slots,
                  i := w.i + pipeline },
         { sh1 with duration := sh1.duration + b.stop, count := sh1.count + n,
                    tstop := b.since })
  else ({ w with finished := true }, sh)

/-- The batch a turn of the worker runs, as the pair of its first slot index
and its size; `none` when the turn runs no batch. -/
def batchOf (pipeline : Int) (w : Worker) : Option (Int × Int) :=
  if !w.finished ∧ w.conn ∧ w.i < w.crequests then
    some (w.i, batchSize pipeline w.crequests w.i)
  else none

/-- The worker run to its end, alone on the shared counters: turn `k` takes
its environment from `env k`.  The result is the last state, the counters
and the list of the batches run, in order; `none` when the fuel ran out
before the goroutine returned. -/
def workerLoop (pipeline : Int) (env : Nat → BatchEnv) :
    Nat → Nat → Worker → Shared → Option (Worker × Shared × List (Int × Int))
  | 0, _, _, _ => none
  | fuel + 1, k, w, sh =>
    if w.finished then some (w, sh, [])
    else
      match workerLoop pipeline env fuel (k + 1) (workerStep pipeline (env k) w sh).1
          (workerStep pipeline (env k) w sh).2 with
      | none => none
      | some (w2, sh2, tr) => some (w2, sh2, (batchOf pipeline w).toList ++ tr)

/-- The worker of a client at the start of the run: `i = 0` and every slot
at the sentinel. -/
def initWorker (conn : Bool) (crequests : Int) (err : Option Err) : Worker :=
  { conn := conn, crequests := crequests, i := 0,
    slots := List.replicate crequests.toNat sentinel, finished := false, err := err }

/-- The slots a list of batches fills when batch number `k + j` of the list
has size `n` and elapsed time `(env (k + j)).stop`: `n` slots equal to
`stop / n` for each batch, in order. -/
def expectedSlots (env : Nat → BatchEnv) : Nat → List (Int × Int) → List Int
  | _, [] => []
  | k, (_, n) :: tr =>
    List.replicate n.toNat (Int.tdiv (env k).stop n) ++ expectedSlots env (k + 1) tr

/-- The batches of a list cover the slot indices from `i` up to `r - 1` in
order, without gap or overlap: each batch starts where the one before it
ends, the first at `i`, and the last ends at `r`. -/
def covers : Int → List (Int × Int) → Int → Prop
  | i, [], r => i = r
  | i, (a, n) :: tr, r => a = i ∧ covers (i + n) tr r

/-! ### All the workers on the shared counters -/

/-- The turn `f` taken by the worker of client `c`; the other workers are
left as they are. -/
def stepAt (f : Worker → Shared → Worker × Shared) :
    Nat → List Worker → Shared → List Worker × Shared
  | _, [], sh => ([], sh)
  | 0, w :: ws, sh => ((f w sh).1 :: ws, (f w sh).2)
  | c + 1, w :: ws, sh => (w :: (stepAt f c ws sh).1, (stepAt f c ws sh).2)

/-- A sequence of turns: each element names the client that takes a turn and
the environment of that turn. -/
def runTurns (pipeline : Int) :
    List (Nat × BatchEnv) → List Worker → Shared → List Worker × Shared
  | [], ws, sh => (ws, sh)
  | (c, b) :: turns, ws, sh =>
    runTurns pipeline turns (stepAt (workerStep pipeline b) c ws sh).1
      (stepAt (workerStep pipeline b) c ws sh).2

/-- The workers at the start of the run, from the request count of each
client and whether its connection is established. -/
def initWorkers (plan : List (Bool × Int)) : List Worker :=
  plan.map (fun p => initWorker p.1 p.2 none)

/-- The shared counters at the start of the run. -/
def initShared : Shared := { totalPayload := 0, duration := 0, count := 0, tstop := 0 }

/-- The table `durs` as the worker states hold it. -/
def tableOf (ws : List Worker) : List (List Int) := ws.map (fun w => w.slots)

/-- The invariant of a worker state: the slots before `i` hold latencies,
none of which is the sentinel, and the slots from `i` on are at the
sentinel. -/
def Worker.wellFilled (w : Worker) : Prop :=
  ∃ pre : List Int, w.slots = pre ++ List.replicate (w.crequests - w.i).toNat sentinel
    ∧ sentinel ∉ pre ∧ 0 ≤ w.i ∧ (w.i < w.crequests → pre.length = w.i.toNat)

/-! ### The end of `Bench`: connection failures, report and exit status -/

/-- The loop `for _, err := range errs` (lines 234-242): every error is
printed and sets `die`; after an error the loop stops when `count == 0`.
The result is the list of the errors printed and the flag `die`. -/
def reportErrors (count : Int) : List (Option Err) → List Err × Bool
  | [] => ([], false)
  | none :: errs => reportErrors count errs
  | some e :: errs =>
    if count = 0 then ([e], true)
    else ((reportErrors count errs).1.cons e, true)

/-- The last turn of the polling loop (`more == false`): the histogram is
printed unless `opts.CSV` or `opts.Quiet` is set, then the errors are
reported.  The result is the errors printed and `die`; `none` means that the
histogram loop was still running when the fuel ran out. -/
def finalReport (fuel : Nat) (csv quiet : Bool) (durs : List (List Int))
    (errs : List (Option Err)) (count : Int) : Option (List Err × Bool) :=
  if !csv ∧ !quiet then
    if (histogram fuel durs).2 then some (reportErrors count errs) else none
  else some (reportErrors count errs)

/-- How a call of `Bench` ends: it returns, or it calls `os.Exit(code)`. -/
inductive Ending where
  | returns
  | exits (code : Nat)
  deriving DecidableEq

/-- The end of `Bench`, with `dial0` the error of `net.Dial` for client 0
(`none` when the connection is established), and `durs`, `errs` and `count`
as they are when the last worker has returned.  When the first dial fails
the error is printed and `Bench` returns (lines 110-114); otherwise the
report is made and `os.Exit(1)` is called when `die` is set. -/
def benchEnding (fuel : Nat) (csv quiet : Bool) (dial0 : Option Err) (durs : List (List Int))
    (errs : List (Option Err)) (count : Int) : Option Ending :=
  match dial0 with
  | some _ => some .returns
  | none =>
    match finalReport fuel csv quiet durs errs count with
    | none => none
    | some (_, die) => some (if die then .exits 1 else .returns)

/-- The exit condition as the specification words it: an outcome holds an
error and a request completed, or the first connection could not be
established. -/
def specNonZeroExit (dial0 : Option Err) (errs : List (Option Err)) (count : Int) : Prop :=
  ((∃ e, some e ∈ errs) ∧ 0 < count) ∨ dial0.isSome

/-- The numbers of the report header (lines 195-197): the `%d` of
`requests completed`, of `parallel clients` and of `bytes payload`. -/
structure Header where
  requestsShown : Int
  clientsShown : Int
  bytesShown : Int
  deriving DecidableEq

/-- The header printed from the options and the snapshot of the counters:
`opts.Requests`, `opts.Clients` and `totalPayload/opts.Requests`; `none`
when `opts.Requests` is 0, where the division panics. -/
def reportHeader (requests clients _count totalPayload : Int) : Option Header :=
  if requests = 0 then none
  else some { requestsShown := requests, clientsShown := clients,
              bytesShown := Int.tdiv totalPayload requests }

/-! ## Theorems -/

/-! ### Client plan -/

theorem rpc_eq_ediv {requests clients : Int} (hN : 0 ≤ requests) (hC : 0 ≤ clients) :
    rpc requests clients = requests / clients := by
  unfold rpc
  exact Int.tdiv_eq_ediv hN hC

theorem rpcex_eq_emod {requests clients : Int} (hN : 0 ≤ requests) (hC : 0 ≤ clients) :
    rpcex requests clients = requests % clients := by
  unfold rpcex
  exact Int.tmod_eq_emod hN hC

/-- Sum of the plan of the first `k` clients when none of them is the last. -/
theorem sum_plan_init (requests clients : Int) (k : Nat) (hk : (k : Int) ≤ clients - 1) :
    ((List.range k).map (fun (i : Nat) => crequests requests clients (i : Int))).sum
      = (k : Int) * rpc requests clients := by
  induction k with
  | zero => simp
  | succ k ih =>
    have hk' : (k : Int) ≤ clients - 1 := by push_cast at hk; omega
    have hne : ¬ ((k : Int) = clients - 1) := by push_cast at hk; omega
    rw [List.range_succ, List.map_append, List.sum_append, ih hk']
    simp only [List.map_cons, List.map_nil, List.sum_cons, List.sum_nil, crequests, hne,
      if_false]
    push_cast
    ring

theorem clientPlan_sum_aux (requests clients : Int) (hC : 1 ≤ clients) :
    (clientPlan requests clients).sum
      = clients * rpc requests clients + rpcex requests clients := by
  obtain ⟨k, hk⟩ : ∃ k : Nat, clients = (k : Int) + 1 :=
    ⟨(clients - 1).toNat, by omega⟩
  have hto : clients.toNat = k + 1 := by omega
  unfold clientPlan
  rw [hto, List.range_succ, List.map_append, List.sum_append,
    sum_plan_init requests clients k (by omega)]
  have hlast : ((k : Int) = clients - 1) := by omega
  simp only [List.map_cons, List.map_nil, List.sum_cons, List.sum_nil, crequests, hlast,
    if_true]
  rw [hk]
  ring

theorem sum_map_replicate_length (l : List Int) (v : Int) (h : ∀ r ∈ l, 0 ≤ r) :
    (((l.map (fun r => List.replicate r.toNat v)).map List.length).sum : Nat) = l.sum := by
  induction l with
  | nil => simp
  | cons a t ih =>
    have ha : 0 ≤ a := h a (List.mem_cons_self a t)
    have ht : ∀ r ∈ t, 0 ≤ r := fun r hr => h r (List.mem_cons_of_mem a hr)
    simp only [List.map_cons, List.sum_cons, List.length_replicate]
    rw [Nat.cast_add, ih ht]
    omega

/-- C1: for every total request count `N ≥ 1` and client count `C ≥ 1`, the
per-client request counts computed by `Bench` sum exactly to `N`, and so do
the lengths of the `C` latency sequences; every client except the last gets
`floor(N/C)`, and the last client gets `floor(N/C) + (N mod C)`. -/
theorem clientPlan_split (N C : Int) (hN : 1 ≤ N) (hC : 1 ≤ C) :
    (clientPlan N C).length = C.toNat
    ∧ (clientPlan N C).sum = N
    ∧ (initDurs N C).length = C.toNat
    ∧ (((initDurs N C).map List.length).sum : Nat) = N
    ∧ (∀ i : Int, 0 ≤ i → i < C - 1 → crequests N C i = N / C)
    ∧ crequests N C (C - 1) = N / C + N % C := by
  have hrpc := @rpc_eq_ediv N C (by omega) (by omega)
  have hex := @rpcex_eq_emod N C (by omega) (by omega)
  have hsum : (clientPlan N C).sum = N := by
    rw [clientPlan_sum_aux N C hC, hrpc, hex]
    exact Int.ediv_add_emod N C
  have hnonneg : ∀ r ∈ clientPlan N C, 0 ≤ r := by
    intro r hr
    simp only [clientPlan, List.mem_map, List.mem_range] at hr
    obtain ⟨i, _, rfl⟩ := hr
    have h1 : 0 ≤ N / C := Int.ediv_nonneg (by omega) (by omega)
    have h2 : 0 ≤ N % C := Int.emod_nonneg N (by omega)
    unfold crequests
    split <;> rw [hrpc] <;> try rw [hex]
    all_goals omega
  refine ⟨by simp [clientPlan], hsum, by simp [initDurs, clientPlan], ?_, ?_, ?_⟩
  · unfold initDurs
    rw [sum_map_replicate_length _ _ hnonneg, hsum]
  · intro i _ hi
    have hne : ¬ (i = C - 1) := by omega
    simp only [crequests, hne, if_false, hrpc]
  · simp only [crequests, if_true, hrpc, hex]

/-- Witness for C1: 10 requests over 3 clients are split as 3, 3, 4. -/
theorem clientPlan_split_witness :
    clientPlan 10 3 = [3, 3, 4]
    ∧ ((clientPlan 10 3).length = (3 : Int).toNat
      ∧ (clientPlan 10 3).sum = 10
      ∧ (initDurs 10 3).length = (3 : Int).toNat
      ∧ (((initDurs 10 3).map List.length).sum : Nat) = (10 : Int)
      ∧ (∀ i : Int, 0 ≤ i → i < 3 - 1 → crequests 10 3 i = 10 / 3)
      ∧ crequests 10 3 (3 - 1) = 10 / 3 + 10 % 3) :=
  ⟨by decide, clientPlan_split 10 3 (by decide) (by decide)⟩

/-! ### The reply decoder -/

theorem readBytes_append (pre rest : List UInt8) (h : (10 : UInt8) ∉ pre) :
    readBytes (pre ++ 10 :: rest) = some (pre ++ [10], rest) := by
  induction pre with
  | nil => simp [readBytes]
  | cons c t ih =>
    have hc : c ≠ 10 := fun e => h (by simp [e])
    have ht : (10 : UInt8) ∉ t := fun e => h (List.mem_cons_of_mem c e)
    simp [readBytes, hc, ih ht]

theorem readBytes_some {rd line rest : List UInt8} (h : readBytes rd = some (line, rest)) :
    rd = line ++ rest ∧ line ≠ [] := by
  induction rd generalizing line with
  | nil => simp [readBytes] at h
  | cons c t ih =>
    rw [readBytes] at h
    split_ifs at h with hc
    · simp only [Option.some.injEq, Prod.mk.injEq] at h
      obtain ⟨rfl, rfl⟩ := h
      simp
    · cases hr : readBytes t with
      | none => simp [hr] at h
      | some p =>
        obtain ⟨l, r⟩ := p
        simp only [hr, Option.some.injEq, Prod.mk.injEq] at h
        obtain ⟨rfl, rfl⟩ := h
        obtain ⟨h1, _⟩ := ih hr
        simp [h1]

theorem readBytes_rest_lt {rd line rest : List UInt8} (h : readBytes rd = some (line, rest)) :
    rest.length < rd.length := by
  obtain ⟨h1, h2⟩ := readBytes_some h
  have : 0 < line.length := List.length_pos.mpr h2
  rw [h1, List.length_append]
  omega

theorem CopyN_length (rd : List UInt8) (m : Int) : (CopyN rd m).2.length ≤ rd.length := by
  unfold CopyN
  split_ifs <;> simp

/-- With more fuel than bytes, `readRespFuel` returns, and it leaves no more
bytes than it was given. -/
theorem readRespFuel_total :
    ∀ (fuel : Nat) (rd : List UInt8) (n : Int), rd.length < fuel →
      ∃ o rest, readRespFuel fuel rd n = some (o, rest) ∧ rest.length ≤ rd.length := by
  intro fuel
  induction fuel with
  | zero => intro rd n h; omega
  | succ fuel ih =>
    intro rd n h
    rw [readRespFuel]
    split_ifs with hn
    · exact ⟨_, _, rfl, le_refl _⟩
    · cases hrb : readBytes rd with
      | none => exact ⟨_, _, rfl, by simp⟩
      | some p =>
        obtain ⟨line, rd1⟩ := p
        have hlt := readBytes_rest_lt hrb
        have hcont : ∀ (rd2 : List UInt8) (k : Int), rd2.length ≤ rd1.length →
            ∃ o rest, readRespFuel fuel rd2 k = some (o, rest) ∧ rest.length ≤ rd.length := by
          intro rd2 k h2
          obtain ⟨o, rest, e, hle⟩ := ih rd2 k (by omega)
          exact ⟨o, rest, e, by omega⟩
        simp only
        cases line with
        | nil => exact ⟨_, _, rfl, by omega⟩
        | cons c t =>
          simp only
          split_ifs with h1 h2 h3
          · exact hcont rd1 _ (le_refl _)
          · cases lengthField (c :: t) with
            | none => exact ⟨_, _, rfl, by omega⟩
            | some field =>
              simp only
              cases ParseInt field with
              | error e => exact ⟨_, _, rfl, by omega⟩
              | ok len =>
                simp only
                split_ifs with h4
                · have hc := CopyN_length rd1 (wrapInt64 (len + 2))
                  rcases hcp : CopyN rd1 (wrapInt64 (len + 2)) with ⟨oe, rd2⟩
                  rw [hcp] at hc
                  cases oe with
                  | some e => exact ⟨_, _, rfl, by simp only at hc ⊢; omega⟩
                  | none => exact hcont rd2 _ hc
                · exact hcont rd1 _ (le_refl _)
          · cases lengthField (c :: t) with
            | none => exact ⟨_, _, rfl, by omega⟩
            | some field =>
              simp only
              cases ParseInt field with
              | error e => exact ⟨_, _, rfl, by omega⟩
              | ok cnt =>
                simp only
                obtain ⟨o, rd2, e, hle⟩ := ih rd1 cnt (by omega)
                rw [e]
                cases o with
                | panic => exact ⟨_, _, rfl, by omega⟩
                | ok => exact hcont rd2 _ hle
                | err e => exact hcont rd2 _ hle
          · exact ⟨_, _, rfl, by omega⟩

/-- The call `readResp(rd, n)` returns on every stream and every count. -/
theorem readResp_returns (rd : List UInt8) (n : Int) :
    ∃ o rest, readResp rd n = some (o, rest) ∧ rest.length ≤ rd.length :=
  readRespFuel_total (rd.length + 1) rd n (Nat.lt_succ_self _)

/-! ### Decimal numbers: `strconv.AppendInt` against `strconv.ParseInt` -/

theorem digitByte_toNat {d : Nat} (h : d < 10) : (digitByte d).toNat = 48 + d := by
  unfold digitByte
  show (48 + d) % 256 = 48 + d
  omega

theorem formatUintFuel_acc (fuel u : Nat) (acc : List UInt8) :
    formatUintFuel fuel u acc = formatUintFuel fuel u [] ++ acc := by
  induction fuel generalizing u acc with
  | zero => simp [formatUintFuel]
  | succ fuel ih =>
    rw [formatUintFuel, formatUintFuel]
    split_ifs with h
    · simp
    · rw [ih (u / 10) (digitByte (u % 10) :: acc), ih (u / 10) [digitByte (u % 10)]]
      simp

theorem formatUintFuel_digits (fuel u : Nat) :
    ∀ b ∈ formatUintFuel fuel u [], 48 ≤ b.toNat ∧ b.toNat ≤ 57 := by
  induction fuel generalizing u with
  | zero => simp [formatUintFuel]
  | succ fuel ih =>
    intro b hb
    rw [formatUintFuel] at hb
    split_ifs at hb with h
    · simp only [List.mem_singleton] at hb
      rw [hb, digitByte_toNat h]
      omega
    · rw [formatUintFuel_acc] at hb
      simp only [List.mem_append, List.mem_singleton] at hb
      rcases hb with hb | hb
      · exact ih _ b hb
      · rw [hb, digitByte_toNat (Nat.mod_lt u (by decide))]
        have := Nat.mod_lt u (show 0 < 10 by decide)
        omega

theorem formatUintFuel_ne_nil (fuel u : Nat) : formatUintFuel (fuel + 1) u [] ≠ [] := by
  rw [formatUintFuel]
  split_ifs with h
  · simp
  · rw [formatUintFuel_acc]
    simp

theorem parseUintLoop_append (xs ys : List UInt8) (n : Nat) :
    parseUintLoop (xs ++ ys) n
      = match parseUintLoop xs n with
        | .ok m => parseUintLoop ys m
        | .error e => .error e := by
  induction xs generalizing n with
  | nil => simp [parseUintLoop]
  | cons c t ih =>
    simp only [List.cons_append, parseUintLoop]
    split_ifs <;> simp [ih]

theorem parseUintLoop_format (fuel u : Nat) (hf : u < fuel) (hu : u < 2 ^ 64) :
    parseUintLoop (formatUintFuel fuel u []) 0 = .ok u := by
  induction fuel generalizing u with
  | zero => omega
  | succ fuel ih =>
    rw [formatUintFuel]
    split_ifs with h
    · have hd := digitByte_toNat h
      have h1 : ¬ (0 ≥ (2 ^ 64 - 1) / 10 + 1) := by omega
      have h3 : 0 * 10 + (48 + u - 48) = u := by omega
      have h4 : 48 ≤ 48 + u ∧ 48 + u ≤ 57 := by omega
      have h5 : ¬ (u ≥ 2 ^ 64) := by omega
      simp only [parseUintLoop, hd, h4, and_self, if_true, h1, if_false, h3, h5]
    · have hlt : u / 10 < fuel := by omega
      have hm := Nat.mod_lt u (show 0 < 10 by decide)
      have hd := digitByte_toNat hm
      rw [formatUintFuel_acc, parseUintLoop_append, ih (u / 10) hlt (by omega)]
      simp only [parseUintLoop, hd]
      have h1 : ¬ (u / 10 ≥ (2 ^ 64 - 1) / 10 + 1) := by omega
      have h3 : u / 10 * 10 + (48 + u % 10 - 48) = u := by omega
      have h4 : 48 ≤ 48 + u % 10 ∧ 48 + u % 10 ≤ 57 := by omega
      have h5 : ¬ (u ≥ 2 ^ 64) := by omega
      simp only [h4, and_self, if_true, h1, if_false, h3, h5]

theorem formatUint_digits (u : Nat) : ∀ b ∈ formatUint u, 48 ≤ b.toNat ∧ b.toNat ≤ 57 :=
  formatUintFuel_digits (u + 1) u

theorem formatUint_ne_nil (u : Nat) : formatUint u ≠ [] :=
  formatUintFuel_ne_nil u u

theorem ParseUint_formatUint (u : Nat) (hu : u < 2 ^ 64) : ParseUint (formatUint u) = .ok u := by
  have h := parseUintLoop_format (u + 1) u (Nat.lt_succ_self u) hu
  unfold ParseUint
  split
  · rename_i e
    exact absurd e (formatUint_ne_nil u)
  · exact h

/-- Parsing the decimal form of a number that fits `int64` gives the number back. -/
theorem ParseInt_formatInt (i : Int) (hlo : -(2 ^ 63) ≤ i) (hhi : i < 2 ^ 63) :
    ParseInt (formatInt i) = .ok i := by
  unfold formatInt
  split_ifs with hneg
  · have hu : i.natAbs < 2 ^ 64 := by omega
    have hc : ¬ (i.natAbs > 2 ^ 63) := by omega
    have hc' : ¬ (9223372036854775808 < i.natAbs) := by omega
    have hi : -|i| = i := by rw [abs_of_neg hneg]; omega
    simp [ParseInt, ParseUint_formatUint _ hu, signedOf, hc', hi]
  · have hu : i.natAbs < 2 ^ 64 := by omega
    have hc : ¬ (i.natAbs ≥ 2 ^ 63) := by omega
    have hi : (i.natAbs : Int) = i := by omega
    cases hfmt : formatUint i.natAbs with
    | nil => exact absurd hfmt (formatUint_ne_nil _)
    | cons c cs =>
      have hd := formatUint_digits i.natAbs c (by rw [hfmt]; exact List.mem_cons_self c cs)
      have h43 : c ≠ 43 := by
        intro e; rw [e] at hd; revert hd; decide
      have h45 : c ≠ 45 := by
        intro e; rw [e] at hd; revert hd; decide
      have hp := ParseUint_formatUint _ hu
      rw [hfmt] at hp
      have hc' : i.natAbs < 9223372036854775808 := by omega
      have hi' : |i| = i := abs_of_nonneg (by omega)
      simp [ParseInt, h43, h45, hp, signedOf, hc', hi']

theorem formatInt_no_newline (i : Int) : (10 : UInt8) ∉ formatInt i := by
  intro h
  unfold formatInt at h
  have key : ∀ u, (10 : UInt8) ∉ formatUint u := by
    intro u hu
    have := formatUint_digits u 10 hu
    revert this
    decide
  split_ifs at h
  · simp only [List.mem_cons] at h
    rcases h with h | h
    · revert h; decide
    · exact key _ h
  · exact key _ h

theorem formatInt_length_pos (i : Int) : 0 < (formatInt i).length := by
  unfold formatInt
  split_ifs
  · simp
  · exact List.length_pos.mpr (formatUint_ne_nil _)

/-- Reading the header line `<marker><number>\r\n`. -/
theorem readBytes_header (marker : UInt8) (i : Int) (rest : List UInt8) (hm : marker ≠ 10) :
    readBytes (marker :: formatInt i ++ [13, 10] ++ rest)
      = some (marker :: formatInt i ++ [13, 10], rest) := by
  have h : (10 : UInt8) ∉ marker :: formatInt i ++ [13] := by
    simp only [List.cons_append, List.mem_cons, List.mem_append, List.mem_singleton, not_or]
    refine ⟨fun e => hm e.symm, formatInt_no_newline i, by decide, by simp⟩
  have := readBytes_append (marker :: formatInt i ++ [13]) rest h
  simpa using this

theorem lengthField_header (marker : UInt8) (field : List UInt8) :
    lengthField (marker :: field ++ [13, 10]) = some field := by
  unfold lengthField
  simp

/-! ### One iteration of `readResp` on each kind of reply -/

theorem wrapInt64_of_fits {x : Int} (hlo : -(2 ^ 63) ≤ x) (hhi : x < 2 ^ 63) :
    wrapInt64 x = x := by
  unfold wrapInt64
  omega

/-- A status, error or integer line is consumed, nothing more. -/
theorem readRespFuel_line (fuel : Nat) (marker : UInt8) (text rest : List UInt8) (n : Int)
    (hn : 0 < n) (hm : marker = 43 ∨ marker = 45 ∨ marker = 58) (ht : (10 : UInt8) ∉ text) :
    readRespFuel (fuel + 1) (marker :: text ++ [13, 10] ++ rest) n
      = readRespFuel fuel rest (n - 1) := by
  have hm10 : marker ≠ 10 := by
    rcases hm with h | h | h <;> rw [h] <;> decide
  have hpre : (10 : UInt8) ∉ marker :: text ++ [13] := by
    simp only [List.cons_append, List.mem_cons, List.mem_append, List.mem_singleton, not_or]
    exact ⟨fun e => hm10 e.symm, ht, by decide⟩
  have e : marker :: text ++ [13, 10] ++ rest = (marker :: text ++ [13]) ++ 10 :: rest := by
    simp
  have hcond : marker = 43 ∨ marker = 58 ∨ marker = 45 := by tauto
  rw [e, readRespFuel, readBytes_append _ _ hpre]
  simp only [List.cons_append, if_neg (not_le.mpr hn), if_pos hcond]

/-- A bulk string whose length fits `int64` with two bytes to spare is
consumed with its payload and the terminator of the payload. -/
theorem readRespFuel_bulk (fuel : Nat) (payload rest : List UInt8) (n : Int)
    (hn : 0 < n) (hlen : (payload.length : Int) + 2 < 2 ^ 63) :
    readRespFuel (fuel + 1)
        (36 :: formatInt (payload.length : Int) ++ [13, 10] ++ payload ++ [13, 10] ++ rest) n
      = readRespFuel fuel rest (n - 1) := by
  have e : 36 :: formatInt (payload.length : Int) ++ [13, 10] ++ payload ++ [13, 10] ++ rest
      = 36 :: formatInt (payload.length : Int) ++ [13, 10] ++ (payload ++ [13, 10] ++ rest) := by
    simp
  have hparse := ParseInt_formatInt (payload.length : Int) (by omega) (by omega)
  have hwrap := @wrapInt64_of_fits ((payload.length : Int) + 2) (by omega) (by omega)
  have hcopy : CopyN (payload ++ [13, 10] ++ rest) ((payload.length : Int) + 2) = (none, rest) := by
    have h1 : ¬ ((payload.length : Int) + 2 ≤ 0) := by omega
    have h2 : ((payload.length : Int) + 2).toNat = payload.length + 2 := by omega
    have h3 : payload.length + 2 ≤ (payload ++ [13, 10] ++ rest).length := by
      simp only [List.length_append, List.length_cons, List.length_nil]
      omega
    have h4 : (payload ++ [13, 10] ++ rest).drop (payload.length + 2) = rest := by
      have : payload ++ [13, 10] ++ rest = (payload ++ [13, 10]) ++ rest := by simp
      rw [this]
      exact List.drop_left' (by simp)
    unfold CopyN
    rw [if_neg h1, h2, if_pos h3, h4]
  rw [e, readRespFuel, readBytes_header 36 _ _ (by decide)]
  have hge : (payload.length : Int) ≥ 0 := by omega
  simp only [if_neg (not_le.mpr hn), lengthField_header, hparse, hwrap, hcopy, if_pos hge]
  simp

/-- A bulk string with a negative length that fits `int64` is consumed
with its header line alone. -/
theorem readRespFuel_negBulk (fuel : Nat) (len : Int) (rest : List UInt8) (n : Int)
    (hn : 0 < n) (hlo : -(2 ^ 63) ≤ len) (hneg : len < 0) :
    readRespFuel (fuel + 1) (36 :: formatInt len ++ [13, 10] ++ rest) n
      = readRespFuel fuel rest (n - 1) := by
  have hparse := ParseInt_formatInt len hlo (by omega)
  rw [readRespFuel, readBytes_header 36 _ _ (by decide)]
  have hge : ¬ (len ≥ 0) := by omega
  simp only [if_neg (not_le.mpr hn), lengthField_header, hparse, if_neg hge]
  simp

/-- An array header whose count fits `int64` starts a nested call on the
count; the value the nested call returns is dropped. -/
theorem readRespFuel_array (fuel : Nat) (cnt : Int) (rest : List UInt8) (n : Int)
    (hn : 0 < n) (hlo : -(2 ^ 63) ≤ cnt) (hhi : cnt < 2 ^ 63) :
    readRespFuel (fuel + 1) (42 :: formatInt cnt ++ [13, 10] ++ rest) n
      = match readRespFuel fuel rest cnt with
        | none => none
        | some (.panic, rd2) => some (.panic, rd2)
        | some (_, rd2) => readRespFuel fuel rd2 (n - 1) := by
  have hparse := ParseInt_formatInt cnt hlo hhi
  rw [readRespFuel, readBytes_header 42 _ _ (by decide)]
  simp only [if_neg (not_le.mpr hn), lengthField_header, hparse]
  simp

/-! ### Well-formed streams -/

theorem WellFormed.count_le {k : Nat} {bs : List UInt8} (h : WellFormed k bs) :
    k ≤ bs.length := by
  induction h with
  | none => simp
  | line marker text tail k hm ht htail ih =>
    simp only [List.cons_append, List.length_cons, List.length_append]
    omega
  | bulk payload tail k htail ih =>
    simp only [List.cons_append, List.length_cons, List.length_append]
    omega
  | nullBulk tail k htail ih =>
    simp only [List.cons_append, List.length_cons, List.length_append]
    omega
  | array m items tail k hitems htail ihi iht =>
    simp only [List.cons_append, List.length_cons, List.length_append]
    omega

/-- On `k` well-formed replies that take fewer than `2^63` bytes, followed
by any bytes `rest`, the decoder returns `nil` and leaves `rest`, for every
fuel above the number of bytes. -/
theorem readRespFuel_wellFormed {k : Nat} {bs : List UInt8} (h : WellFormed k bs) :
    bs.length < 2 ^ 63 → ∀ (rest : List UInt8) (fuel : Nat), (bs ++ rest).length < fuel →
      readRespFuel fuel (bs ++ rest) (k : Int) = some (.ok, rest) := by
  induction h with
  | none =>
    intro _ rest fuel hf
    obtain ⟨f, rfl⟩ : ∃ f, fuel = f + 1 := ⟨fuel - 1, by omega⟩
    simp [readRespFuel]
  | line marker text tail k hm ht htail ih =>
    intro hsz rest fuel hf
    obtain ⟨f, rfl⟩ : ∃ f, fuel = f + 1 := ⟨fuel - 1, by omega⟩
    simp only [List.cons_append, List.length_cons, List.length_append, List.length_nil] at hsz hf
    have e : marker :: text ++ [13, 10] ++ tail ++ rest
        = marker :: text ++ [13, 10] ++ (tail ++ rest) := by simp
    rw [e, readRespFuel_line f marker text (tail ++ rest) _ (by push_cast; omega) hm ht]
    have hk : ((k + 1 : Nat) : Int) - 1 = (k : Int) := by push_cast; omega
    rw [hk]
    exact ih (by omega) rest f (by simp only [List.length_append]; omega)
  | bulk payload tail k htail ih =>
    intro hsz rest fuel hf
    obtain ⟨f, rfl⟩ : ∃ f, fuel = f + 1 := ⟨fuel - 1, by omega⟩
    simp only [List.cons_append, List.length_cons, List.length_append, List.length_nil] at hsz hf
    have e : 36 :: formatInt (payload.length : Int) ++ [13, 10] ++ payload ++ [13, 10] ++ tail
          ++ rest
        = 36 :: formatInt (payload.length : Int) ++ [13, 10] ++ payload ++ [13, 10]
          ++ (tail ++ rest) := by simp
    rw [e, readRespFuel_bulk f payload (tail ++ rest) _ (by push_cast; omega)
      (by push_cast; omega)]
    have hk : ((k + 1 : Nat) : Int) - 1 = (k : Int) := by push_cast; omega
    rw [hk]
    exact ih (by omega) rest f (by simp only [List.length_append]; omega)
  | nullBulk tail k htail ih =>
    intro hsz rest fuel hf
    obtain ⟨f, rfl⟩ : ∃ f, fuel = f + 1 := ⟨fuel - 1, by omega⟩
    simp only [List.cons_append, List.length_cons, List.length_append, List.length_nil] at hsz hf
    have e : 36 :: formatInt (-1) ++ [13, 10] ++ tail ++ rest
        = 36 :: formatInt (-1) ++ [13, 10] ++ (tail ++ rest) := by simp
    rw [e, readRespFuel_negBulk f (-1) (tail ++ rest) _ (by push_cast; omega) (by decide)
      (by decide)]
    have hk : ((k + 1 : Nat) : Int) - 1 = (k : Int) := by push_cast; omega
    rw [hk]
    exact ih (by omega) rest f (by simp only [List.length_append]; omega)
  | array m items tail k hitems htail ihi iht =>
    intro hsz rest fuel hf
    obtain ⟨f, rfl⟩ : ∃ f, fuel = f + 1 := ⟨fuel - 1, by omega⟩
    have hm := hitems.count_le
    simp only [List.cons_append, List.length_cons, List.length_append, List.length_nil] at hsz hf
    have e : 42 :: formatInt (m : Int) ++ [13, 10] ++ items ++ tail ++ rest
        = 42 :: formatInt (m : Int) ++ [13, 10] ++ (items ++ (tail ++ rest)) := by simp
    rw [e, readRespFuel_array f (m : Int) (items ++ (tail ++ rest)) _ (by push_cast; omega)
      (by omega) (by omega)]
    rw [ihi (by omega) (tail ++ rest) f (by simp only [List.length_append]; omega)]
    have hk : ((k + 1 : Nat) : Int) - 1 = (k : Int) := by push_cast; omega
    simp only [hk]
    exact iht (by omega) rest f (by simp only [List.length_append]; omega)

/-- C2: for every count `k` and every stream that begins with `k` well-formed
replies (status, error and integer lines, bulk strings, null bulk strings,
arrays nested to any depth) of fewer than `2^63` bytes in all, followed by
arbitrary trailing bytes `rest`, `readResp(stream, k)` returns `nil` and
leaves exactly `rest` unread. -/
theorem readResp_wellFormed (k : Nat) (bs rest : List UInt8) (h : WellFormed k bs)
    (hsize : bs.length < 2 ^ 63) :
    readResp (bs ++ rest) (k : Int) = some (.ok, rest) :=
  readRespFuel_wellFormed h hsize rest _ (Nat.lt_succ_self _)

/-- The reply stream of scenario C: `*2\r\n$5\r\nhello\r\n$-1\r\n`. -/
theorem scenarioC_wellFormed :
    WellFormed 1 [42, 50, 13, 10, 36, 53, 13, 10, 104, 101, 108, 108, 111, 13, 10,
      36, 45, 49, 13, 10] :=
  WellFormed.array 2 [36, 53, 13, 10, 104, 101, 108, 108, 111, 13, 10, 36, 45, 49, 13, 10] [] 0
    (WellFormed.bulk [104, 101, 108, 108, 111] [36, 45, 49, 13, 10] 1
      (WellFormed.nullBulk [] 0 WellFormed.none))
    WellFormed.none

/-- Witness for C2: the array of a bulk string of length 5 and a null bulk
string, followed by `+OK\r\n`, is consumed as one reply and `+OK\r\n` is left. -/
theorem readResp_wellFormed_witness :
    readResp ([42, 50, 13, 10, 36, 53, 13, 10, 104, 101, 108, 108, 111, 13, 10,
      36, 45, 49, 13, 10] ++ [43, 79, 75, 13, 10]) ((1 : Nat) : Int)
      = some (.ok, [43, 79, 75, 13, 10]) :=
  readResp_wellFormed 1 _ [43, 79, 75, 13, 10] scenarioC_wellFormed (by decide)

/-! ### Malformed streams -/

/-- C3, at the failing input `*1\r\n?\r\n` with count 1: the nested call
meets the unknown marker `?` and returns "invalid server response", the
caller drops that value, and `readResp` returns `nil` with the whole stream
consumed although the stream holds no complete well-formed reply. -/
theorem readResp_nested_error_dropped :
    readRespFuel 7 [63, 13, 10] 1 = some (.err .invalidServerResponse, [])
    ∧ readResp [42, 49, 13, 10, 63, 13, 10] 1 = some (.ok, [])
    ∧ readResp [42, 49, 13, 10] 1 = some (.ok, []) := by
  decide

/-- C4: for every stream whose first line (the bytes up to and including the
first `'\n'`) starts with a byte other than `+`, `-`, `:`, `$` or `*`, and
every count `n ≥ 1`, `readResp` fails with the error "invalid server
response" and has consumed exactly that first line. -/
theorem readResp_unknown_marker (pre rest : List UInt8) (n : Int) (hn : 1 ≤ n)
    (hpre : (10 : UInt8) ∉ pre)
    (hhead : ∀ c, (pre ++ [10]).head? = some c →
      c ≠ 43 ∧ c ≠ 45 ∧ c ≠ 58 ∧ c ≠ 36 ∧ c ≠ 42) :
    readResp (pre ++ 10 :: rest) n = some (.err .invalidServerResponse, rest)
    ∧ Err.message .invalidServerResponse = "invalid server response" := by
  refine ⟨?_, rfl⟩
  unfold readResp
  rw [readRespFuel, readBytes_append pre rest hpre]
  have hn0 : ¬ (n ≤ 0) := by omega
  cases pre with
  | nil =>
    simp only [List.nil_append, if_neg hn0]
    have h1 : ¬ ((10 : UInt8) = 43 ∨ (10 : UInt8) = 58 ∨ (10 : UInt8) = 45) := by decide
    have h2 : ¬ ((10 : UInt8) = 36) := by decide
    have h3 : ¬ ((10 : UInt8) = 42) := by decide
    simp only [if_neg h1, if_neg h2, if_neg h3]
  | cons c t =>
    obtain ⟨a1, a2, a3, a4, a5⟩ := hhead c (by simp)
    have h1 : ¬ (c = 43 ∨ c = 58 ∨ c = 45) := by tauto
    simp only [List.cons_append, if_neg hn0, if_neg h1, if_neg a4, if_neg a5]

/-- Witness for C4: on `?x\nabc` with count 2 the line `?x\n` is consumed and
`abc` is left. -/
theorem readResp_unknown_marker_witness :
    readResp ([63, 120] ++ 10 :: [97, 98, 99]) 2
      = some (.err .invalidServerResponse, [97, 98, 99])
    ∧ Err.message .invalidServerResponse = "invalid server response" :=
  readResp_unknown_marker [63, 120] [97, 98, 99] 2 (by decide) (by decide) (by decide)

/-- C5 fails as stated: the length `L = -9223372036854775809 < 0` does not
fit `int64`, `strconv.ParseInt` reports a range error and `readResp`
returns that error instead of `nil`. -/
theorem readResp_negBulk_out_of_range :
    (-9223372036854775809 : Int) < 0
    ∧ readResp (36 :: formatInt (-9223372036854775809) ++ [13, 10] ++ [97]) 1
        = some (.err .rangeErr, [97])
    ∧ readResp (36 :: formatInt (-9223372036854775809) ++ [13, 10] ++ [97]) 1
        ≠ some (.ok, [97]) := by
  decide

/-- C5, amended: for every stream `'$' ++ decimal(L) ++ "\r\n" ++ rest` with
`-2^63 ≤ L < 0`, `readResp(stream, 1)` returns `nil` and leaves exactly
`rest` unread: no payload byte and no further line terminator is skipped. -/
theorem readResp_negBulk (len : Int) (rest : List UInt8) (hlo : -(2 ^ 63) ≤ len)
    (hneg : len < 0) :
    readResp (36 :: formatInt len ++ [13, 10] ++ rest) 1 = some (.ok, rest) := by
  unfold readResp
  rw [readRespFuel_negBulk _ len rest 1 (by decide) hlo hneg]
  have hpos := formatInt_length_pos len
  obtain ⟨f, hf⟩ : ∃ f, (36 :: formatInt len ++ [13, 10] ++ rest).length = f + 1 :=
    ⟨(formatInt len ++ [13, 10] ++ rest).length, by simp⟩
  rw [hf]
  simp [readRespFuel]

/-- Witness for C5: `$-1\r\nabc` with count 1 leaves `abc`. -/
theorem readResp_negBulk_witness :
    formatInt (-1) = [45, 49]
    ∧ readResp (36 :: formatInt (-1) ++ [13, 10] ++ [97, 98, 99]) 1
        = some (.ok, [97, 98, 99]) :=
  ⟨by decide, readResp_negBulk (-1) [97, 98, 99] (by decide) (by decide)⟩

/-- C6, at the failing inputs `$\n` and `*\n` with count 1: the line has
two bytes, the slice `line[1:len(line)-2]` is `line[1:0]`, and the call
panics instead of returning an error value.  On `$1x\nabc` the slice drops
the `x` with the `'\n'`, the field read is `1`, and the call returns `nil`. -/
theorem readResp_short_header_panics :
    lengthField [36, 10] = none
    ∧ readResp [36, 10] 1 = some (.panic, [])
    ∧ readResp [42, 10] 1 = some (.panic, [])
    ∧ readResp [36, 49, 120, 10, 97, 98, 99] 1 = some (.ok, []) := by
  decide

/-! ### The command encoder -/

theorem appendArg_eq (buf arg : List UInt8) : appendArg buf arg = buf ++ bulkFrame arg := by
  simp [appendArg, bulkFrame, AppendInt]

theorem foldl_appendArg (args : List (List UInt8)) (buf : List UInt8) :
    args.foldl appendArg buf = buf ++ (args.map bulkFrame).flatten := by
  induction args generalizing buf with
  | nil => simp
  | cons a t ih =>
    rw [List.foldl_cons, ih, appendArg_eq]
    simp

theorem AppendCommand_eq (buf : List UInt8) (args : List (List UInt8)) :
    AppendCommand buf args = buf ++ commandFrame args := by
  unfold AppendCommand commandFrame
  simp only [AppendInt, foldl_appendArg]
  simp

/-- C7: for every byte slice `buf` and every list of strings `args`,
`AppendCommand(buf, args...)` is `buf`, then `*`, the decimal number of
arguments and `"\r\n"`, then for each argument in order `$`, the decimal
byte length of the argument, `"\r\n"`, the bytes of the argument and
`"\r\n"`; the bytes of `buf` stay in front unchanged. -/
theorem AppendCommand_frame (buf : List UInt8) (args : List (List UInt8)) :
    AppendCommand buf args
      = buf ++ ([42] ++ formatInt (args.length : Int) ++ [13, 10]
          ++ (args.map (fun arg =>
                [36] ++ formatInt (arg.length : Int) ++ [13, 10] ++ arg ++ [13, 10])).flatten)
    ∧ (AppendCommand buf args).take buf.length = buf := by
  have h := AppendCommand_eq buf args
  refine ⟨?_, ?_⟩
  · rw [h]
    rfl
  · rw [h]
    simp

/-! ### The histogram -/

/-- The number of completed latencies below a threshold. -/
theorem scanRow_eq (limit : Int) (row : List Int) (hits count : Int) :
    scanRow limit row (hits, count)
      = (hits + (((row.filter (fun d => d ≠ -1)).countP (fun d => d < limit) : Nat) : Int),
         count + (((row.filter (fun d => d ≠ -1)).length : Nat) : Int)) := by
  induction row generalizing hits count with
  | nil => simp [scanRow]
  | cons d t ih =>
    rw [scanRow]
    by_cases hd : d = -1
    · simp [hd, ih]
    · by_cases hl : d < limit
      · simp only [if_neg hd, if_pos hl, ih]
        simp [hd, hl, List.countP_cons]
        constructor <;> ring
      · simp only [if_neg hd, if_neg hl, ih]
        simp [hd, hl, List.countP_cons]
        ring

theorem scanTable_eq (limit : Int) (durs : List (List Int)) (hits count : Int) :
    scanTable limit durs (hits, count)
      = (hits + (((completed durs).countP (fun d => d < limit) : Nat) : Int),
         count + (((completed durs).length : Nat) : Int)) := by
  induction durs generalizing hits count with
  | nil => simp [scanTable, completed]
  | cons row rows ih =>
    rw [scanTable, scanRow_eq, ih]
    simp only [completed, List.flatten_cons, List.filter_append, List.countP_append,
      List.length_append]
    push_cast
    simp only [add_assoc]

theorem perAt_eq (durs : List (List Int)) (limit : Int) :
    perAt durs limit
      = if (completed durs).length = 0 then none
        else some ((((completed durs).countP (fun d => d < limit) : Nat) : ℚ)
          / (((completed durs).length : Nat) : ℚ)) := by
  unfold perAt fdiv
  rw [scanTable_eq]
  simp only [zero_add]
  split_ifs with h1 h2 h2
  · rfl
  · exact absurd (by exact_mod_cast h1) h2
  · exact absurd (by rw [h2]; rfl) h1
  · simp

theorem perAt_eq_frac (durs : List (List Int)) (limit : Int) (hc : completed durs ≠ []) :
    perAt durs limit = some (fracBelow durs limit) := by
  rw [perAt_eq, if_neg (by simpa using hc)]
  rfl

theorem perAt_eq_none (durs : List (List Int)) (limit : Int) (hc : completed durs = []) :
    perAt durs limit = none := by
  rw [perAt_eq, if_pos (by simp [hc])]

theorem fracBelow_le_one (durs : List (List Int)) (limit : Int) : fracBelow durs limit ≤ 1 := by
  unfold fracBelow
  apply div_le_one_of_le₀
  · exact_mod_cast List.countP_le_length _
  · exact Nat.cast_nonneg _

theorem fracBelow_mono (durs : List (List Int)) {a b : Int} (h : a ≤ b) :
    fracBelow durs a ≤ fracBelow durs b := by
  unfold fracBelow
  apply div_le_div_of_nonneg_right _ (Nat.cast_nonneg _)
  have : (completed durs).countP (fun d => decide (d < a))
      ≤ (completed durs).countP (fun d => decide (d < b)) := by
    apply List.countP_mono_left
    intro d _ hd
    simp only [decide_eq_true_eq] at hd ⊢
    omega
  exact_mod_cast this

theorem fracBelow_eq_one (durs : List (List Int)) (limit : Int) (hc : completed durs ≠ [])
    (hall : ∀ d ∈ completed durs, d < limit) : fracBelow durs limit = 1 := by
  unfold fracBelow
  have hcount : (completed durs).countP (fun d => decide (d < limit)) = (completed durs).length := by
    rw [List.countP_eq_length]
    intro d hd
    simpa using hall d hd
  rw [hcount]
  apply div_self
  have : 0 < (completed durs).length := List.length_pos.mpr hc
  exact_mod_cast this.ne'

theorem fracBelow_eq_zero (durs : List (List Int)) (limit : Int)
    (hall : ∀ d ∈ completed durs, limit ≤ d) : fracBelow durs limit = 0 := by
  unfold fracBelow
  have hcount : (completed durs).countP (fun d => decide (d < limit)) = 0 := by
    rw [List.countP_eq_zero]
    intro d hd
    have := hall d hd
    simp only [decide_eq_true_eq]
    omega
  rw [hcount]
  simp

theorem floorEq_false_lt {p q : ℚ} (h : floorEq (some p) (some q) = false) (hle : q ≤ p) :
    q < p := by
  rcases lt_or_eq_of_le hle with h1 | h1
  · exact h1
  · subst h1
    simp [floorEq] at h

theorem floorEq_one_of_lt {q : ℚ} (hq : q < 1) : floorEq (some 1) (some q) = false := by
  have h1 : ⌊q * 10000⌋ < 10000 := by
    rw [Int.floor_lt]
    push_cast
    linarith
  have h2 : ⌊(1 : ℚ) * 10000⌋ = 10000 := by
    rw [one_mul]
    exact Int.floor_eq_iff.mpr ⟨by norm_num, by norm_num⟩
  simp only [floorEq, h2, decide_eq_false_iff_not]
  omega

/-- Every line printed is computed at a threshold `limit + j` milliseconds,
`j ≥ 1`, past the starting threshold. -/
theorem histLoop_lines (durs : List (List Int)) :
    ∀ (fuel : Nat) (limit : Int) (lastper : Option ℚ),
      ∀ l ∈ (histLoop fuel durs limit lastper).1,
        ∃ j : Nat, 1 ≤ j ∧ l.per = perAt durs (limit + j * Millisecond)
          ∧ l.ms = Int.tdiv (limit + j * Millisecond - Millisecond) Millisecond := by
  intro fuel
  induction fuel with
  | zero => intro limit lastper l hl; simp [histLoop] at hl
  | succ fuel ih =>
    intro limit lastper l hl
    have hshift : ∀ j : Nat, limit + Millisecond + (j : Int) * Millisecond
        = limit + ((j + 1 : Nat) : Int) * Millisecond := by
      intro j; push_cast; ring
    have hrec : ∀ lp, l ∈ (histLoop fuel durs (limit + Millisecond) lp).1 →
        ∃ j : Nat, 1 ≤ j ∧ l.per = perAt durs (limit + j * Millisecond)
          ∧ l.ms = Int.tdiv (limit + j * Millisecond - Millisecond) Millisecond := by
      intro lp h
      obtain ⟨j, hj, h1, h2⟩ := ih (limit + Millisecond) lp l h
      exact ⟨j + 1, by omega, by rw [h1, hshift], by rw [h2, hshift]⟩
    have hfirst : (⟨perAt durs (limit + Millisecond),
          Int.tdiv (limit + Millisecond - Millisecond) Millisecond⟩ : HistLine).per
          = perAt durs (limit + ((1 : Nat) : Int) * Millisecond)
        ∧ (⟨perAt durs (limit + Millisecond),
          Int.tdiv (limit + Millisecond - Millisecond) Millisecond⟩ : HistLine).ms
          = Int.tdiv (limit + ((1 : Nat) : Int) * Millisecond - Millisecond) Millisecond := by
      simp
    simp only [histLoop] at hl
    split_ifs at hl with h1 h2
    · exact hrec _ hl
    · simp only [List.mem_singleton] at hl
      rw [hl]
      exact ⟨1, le_refl _, hfirst.1, hfirst.2⟩
    · simp only [List.mem_cons] at hl
      rcases hl with hl | hl
      · rw [hl]
        exact ⟨1, le_refl _, hfirst.1, hfirst.2⟩
      · exact hrec _ hl

/-- The invariant of the histogram loop on a table with a completed
request, from a state whose `lastper` is a ratio `q < 1` not above the
ratios still to come: the ratios printed are above `q` and strictly
increasing, the last one is `1` when the loop ends, and the loop ends
within the fuel once the fuel covers every completed latency. -/
theorem histLoop_inv (durs : List (List Int)) (hc : completed durs ≠ []) :
    ∀ (fuel : Nat) (limit : Int) (q : ℚ), q < 1 → q ≤ fracBelow durs (limit + Millisecond) →
      ∃ qs : List ℚ,
        (histLoop fuel durs limit (some q)).1.map HistLine.per = qs.map some
        ∧ (∀ p ∈ qs, q < p)
        ∧ qs.Pairwise (fun a b => a < b)
        ∧ ((histLoop fuel durs limit (some q)).2 = true → qs.getLast? = some 1)
        ∧ (1 ≤ fuel → (∀ d ∈ completed durs, d < limit + fuel * Millisecond) →
            (histLoop fuel durs limit (some q)).2 = true) := by
  intro fuel
  induction fuel with
  | zero =>
    intro limit q _ _
    exact ⟨[], by simp [histLoop], by simp, List.Pairwise.nil, by simp [histLoop],
      fun h => by omega⟩
  | succ fuel ih =>
    intro limit q hq1 hqle
    have hper := perAt_eq_frac durs (limit + Millisecond) hc
    have hms : (0 : Int) ≤ Millisecond := by decide
    have hnext : fracBelow durs (limit + Millisecond)
        ≤ fracBelow durs (limit + Millisecond + Millisecond) :=
      fracBelow_mono durs (by omega)
    -- when the fuel is spent after this step, this step already sees every latency
    have hlast : (∀ d ∈ completed durs, d < limit + ((fuel + 1 : Nat) : Int) * Millisecond) →
        fuel = 0 → fracBelow durs (limit + Millisecond) = 1 := by
      intro hall h0
      apply fracBelow_eq_one durs _ hc
      intro d hd
      have := hall d hd
      rw [h0] at this
      simpa using this
    have hcover : (∀ d ∈ completed durs, d < limit + ((fuel + 1 : Nat) : Int) * Millisecond) →
        ∀ d ∈ completed durs, d < limit + Millisecond + (fuel : Int) * Millisecond := by
      intro hall d hd
      have := hall d hd
      push_cast at this
      linarith
    simp only [histLoop, hper]
    split_ifs with h1 h2
    · -- the ratio rounds to the last one printed: no line
      obtain ⟨qs, e1, e2, e3, e4, e5⟩ := ih (limit + Millisecond) q hq1 (le_trans hqle hnext)
      refine ⟨qs, e1, e2, e3, e4, ?_⟩
      intro _ hall
      have hf : 1 ≤ fuel := by
        rcases Nat.eq_zero_or_pos fuel with h0 | h0
        · have h := hlast hall h0
          rw [h, floorEq_one_of_lt hq1] at h1
          exact absurd h1 (by decide)
        · exact h0
      exact e5 hf (hcover hall)
    · -- the ratio is 1: the last line
      have hp : fracBelow durs (limit + Millisecond) = 1 := by
        simpa [isOne] using h2
      refine ⟨[1], by simp [hp], by simpa using hq1, by simp, by simp, by simp⟩
    · -- a line, and the loop goes on
      have hlt : q < fracBelow durs (limit + Millisecond) :=
        floorEq_false_lt (by simpa using h1) hqle
      have hne : fracBelow durs (limit + Millisecond) ≠ 1 := by
        simpa [isOne] using h2
      have hp1 : fracBelow durs (limit + Millisecond) < 1 :=
        lt_of_le_of_ne (fracBelow_le_one _ _) hne
      obtain ⟨qs, e1, e2, e3, e4, e5⟩ :=
        ih (limit + Millisecond) (fracBelow durs (limit + Millisecond)) hp1 hnext
      refine ⟨fracBelow durs (limit + Millisecond) :: qs, ?_, ?_, ?_, ?_, ?_⟩
      · simp [e1]
      · intro p hp
        simp only [List.mem_cons] at hp
        rcases hp with hp | hp
        · rw [hp]; exact hlt
        · exact lt_trans hlt (e2 p hp)
      · exact List.Pairwise.cons e2 e3
      · intro hdone
        have h := e4 hdone
        cases qs with
        | nil => simp at h
        | cons a t =>
          rw [List.getLast?_cons_cons]
          exact h
      · intro _ hall
        have hf : 1 ≤ fuel := by
          rcases Nat.eq_zero_or_pos fuel with h0 | h0
          · exact absurd (hlast hall h0) hne
          · exact h0
        exact e5 hf (hcover hall)

theorem fracBelow_nonneg (durs : List (List Int)) (limit : Int) : 0 ≤ fracBelow durs limit := by
  unfold fracBelow
  exact div_nonneg (Nat.cast_nonneg _) (Nat.cast_nonneg _)

/-- The lines of the histogram: line `ms = j - 1` is computed at the
threshold of `j` milliseconds. -/
theorem histogram_lines (fuel : Nat) (durs : List (List Int)) :
    ∀ l ∈ (histogram fuel durs).1,
      ∃ j : Nat, 1 ≤ j ∧ l.per = perAt durs (j * Millisecond) ∧ l.ms = (j : Int) - 1 := by
  intro l hl
  obtain ⟨j, hj, h1, h2⟩ := histLoop_lines durs fuel 0 (some 0) l hl
  refine ⟨j, hj, by simpa using h1, ?_⟩
  have e : (0 : Int) + (j : Int) * Millisecond - Millisecond = ((j : Int) - 1) * Millisecond := by
    ring
  rw [h2, e]
  exact Int.mul_tdiv_cancel _ (by decide)

/-- C8: for every table of latency slots with at least one non-sentinel
slot, once the fuel covers the largest completed latency the histogram loop
ends; the sequence of cumulative ratios it emits is non-decreasing and its
last element is exactly 1; and at every threshold of `t` milliseconds not
above the minimum completed latency the computed ratio is 0 and no line is
emitted for it. -/
theorem histogram_cumulative (durs : List (List Int)) (fuel : Nat)
    (hc : completed durs ≠ []) (hfuel : 1 ≤ fuel)
    (hmax : ∀ d ∈ completed durs, d < fuel * Millisecond) :
    (histogram fuel durs).2 = true
    ∧ (∃ qs : List ℚ, (histogram fuel durs).1.map HistLine.per = qs.map some
        ∧ qs.Pairwise (fun a b => a ≤ b) ∧ qs.getLast? = some 1)
    ∧ (∀ t : Nat, 1 ≤ t → (∀ d ∈ completed durs, t * Millisecond ≤ d) →
        perAt durs (t * Millisecond) = some 0
        ∧ ∀ l ∈ (histogram fuel durs).1, l.ms ≠ (t : Int) - 1) := by
  obtain ⟨qs, e1, e2, e3, e4, e5⟩ :=
    histLoop_inv durs hc fuel 0 0 (by norm_num) (fracBelow_nonneg _ _)
  have hdone : (histogram fuel durs).2 = true :=
    e5 hfuel (by simpa using hmax)
  refine ⟨hdone, ⟨qs, e1, e3.imp (fun h => le_of_lt h), e4 hdone⟩, ?_⟩
  intro t _ hmin
  have hzero : perAt durs (t * Millisecond) = some 0 := by
    rw [perAt_eq_frac durs _ hc, fracBelow_eq_zero durs _ hmin]
  refine ⟨hzero, ?_⟩
  intro l hl hms
  obtain ⟨j, _, h1, h2⟩ := histogram_lines fuel durs l hl
  have hjt : j = t := by omega
  subst hjt
  have hmem : l.per ∈ (histogram fuel durs).1.map HistLine.per :=
    List.mem_map_of_mem _ hl
  rw [show (histogram fuel durs).1 = (histLoop fuel durs 0 (some 0)).1 from rfl, e1,
    List.mem_map] at hmem
  obtain ⟨p, hp, hpe⟩ := hmem
  have hpos := e2 p hp
  rw [h1, hzero] at hpe
  have : p = 0 := Option.some.inj hpe
  rw [this] at hpos
  exact lt_irrefl _ hpos

/-- Witness for C8: the latencies 0.5 ms, 1.5 ms and 1.5 ms, with one slot
left at the sentinel, give the ratios 1/3 and 1. -/
theorem histogram_cumulative_witness :
    histogram 2 [[500000, 1500000], [-1, 1500000]] = ([⟨some (1 / 3), 0⟩, ⟨some 1, 1⟩], true)
    ∧ ((histogram 2 [[500000, 1500000], [-1, 1500000]]).2 = true
      ∧ (∃ qs : List ℚ,
          (histogram 2 [[500000, 1500000], [-1, 1500000]]).1.map HistLine.per = qs.map some
          ∧ qs.Pairwise (fun a b => a ≤ b) ∧ qs.getLast? = some 1)
      ∧ (∀ t : Nat, 1 ≤ t →
          (∀ d ∈ completed [[500000, 1500000], [-1, 1500000]], t * Millisecond ≤ d) →
          perAt [[500000, 1500000], [-1, 1500000]] (t * Millisecond) = some 0
          ∧ ∀ l ∈ (histogram 2 [[500000, 1500000], [-1, 1500000]]).1, l.ms ≠ (t : Int) - 1)) :=
  ⟨by norm_num [histogram, histLoop, perAt, scanTable, scanRow, fdiv, floorEq, isOne,
      Millisecond],
    histogram_cumulative [[500000, 1500000], [-1, 1500000]] 2 (by decide) (by decide)
      (by decide)⟩

/-- The histogram of a single latency of 0.5 ms: one line, `100% <= 0`. -/
theorem histogram_half_ms : histogram 1 [[500000]] = ([⟨some 1, 0⟩], true) := by
  norm_num [histogram, histLoop, perAt, scanTable, scanRow, fdiv, floorEq, isOne, Millisecond]

/-- C9 fails as stated: for the single latency of 0.5 ms the loop emits the
line `100.00% <= 0 milliseconds`, whereas no completed latency is at most
0 milliseconds, so the percentage of the claim is 0. -/
theorem histogram_line_not_atMost :
    histogram 1 [[500000]] = ([⟨some 1, 0⟩], true)
    ∧ HistLine.pct ⟨some 1, 0⟩ = some 100
    ∧ pctAtMost [[500000]] 0 = some 0
    ∧ ¬ (∀ l ∈ (histogram 1 [[500000]]).1, l.pct = pctAtMost [[500000]] l.ms) := by
  have h1 := histogram_half_ms
  have h2 : HistLine.pct ⟨some 1, 0⟩ = some 100 := by
    norm_num [HistLine.pct]
  have h3 : pctAtMost [[500000]] 0 = some 0 := by
    norm_num [pctAtMost, completed, Millisecond]
  refine ⟨h1, h2, h3, ?_⟩
  intro h
  have := h ⟨some 1, 0⟩ (by rw [h1]; simp)
  rw [h2, h3] at this
  norm_num at this

/-- C9, amended: for every table of latency slots and every histogram line
`<pct>% <= <k> milliseconds` that the loop emits, `pct` is 100 times the
number of non-sentinel slots whose latency is below `k + 1` milliseconds,
divided by the number of non-sentinel slots. -/
theorem histogram_line_pct (fuel : Nat) (durs : List (List Int)) :
    ∀ l ∈ (histogram fuel durs).1, l.pct = pctBelowNext durs l.ms := by
  intro l hl
  obtain ⟨j, _, h1, h2⟩ := histogram_lines fuel durs l hl
  have e : l.ms + 1 = (j : Int) := by omega
  unfold HistLine.pct pctBelowNext
  rw [h1, perAt_eq, e]
  split_ifs with h
  · rfl
  · simp only [Option.map_some']
    congr 1
    ring

/-- Witness for C9, amended: the line of the single latency of 0.5 ms reads
100%, the share of the latencies below 1 millisecond. -/
theorem histogram_line_pct_witness :
    (⟨some 1, 0⟩ : HistLine) ∈ (histogram 1 [[500000]]).1
    ∧ HistLine.pct ⟨some 1, 0⟩ = pctBelowNext [[500000]] (HistLine.ms ⟨some 1, 0⟩) :=
  ⟨by rw [histogram_half_ms]; simp,
    histogram_line_pct 1 [[500000]] ⟨some 1, 0⟩ (by rw [histogram_half_ms]; simp)⟩

/-- C10, on the failing inputs: when no request completed (every slot holds
the sentinel, or there is no slot) the ratio is NaN at every threshold, the
test `per == 1.0` never holds, and the loop is still running at the end of
every fuel, having printed one line per threshold. -/
theorem histogram_never_ends (durs : List (List Int)) (hc : completed durs = [])
    (fuel : Nat) :
    (histogram fuel durs).2 = false ∧ (histogram fuel durs).1.length = fuel := by
  have key : ∀ (fuel : Nat) (limit : Int) (lastper : Option ℚ),
      (histLoop fuel durs limit lastper).2 = false
      ∧ (histLoop fuel durs limit lastper).1.length = fuel := by
    intro fuel
    induction fuel with
    | zero => intro limit lastper; simp [histLoop]
    | succ fuel ih =>
      intro limit lastper
      have hper := perAt_eq_none durs (limit + Millisecond) hc
      have h := ih (limit + Millisecond) none
      simp only [histLoop, hper, floorEq, isOne]
      simpa using h
  exact key fuel 0 (some 0)

/-- Witness for C10: a single client whose only slot is at the sentinel. -/
theorem histogram_never_ends_witness :
    completed [[-1]] = []
    ∧ ((histogram 1000 [[-1]]).2 = false ∧ (histogram 1000 [[-1]]).1.length = 1000) :=
  ⟨by decide, histogram_never_ends [[-1]] (by decide) 1000⟩

/-! ### Report of the errors and exit status -/

theorem reportErrors_die (count : Int) (errs : List (Option Err)) :
    (reportErrors count errs).2 = true ↔ ∃ e, some e ∈ errs := by
  induction errs with
  | nil => simp [reportErrors]
  | cons a t ih =>
    cases a with
    | none =>
      rw [reportErrors, ih]
      simp
    | some e =>
      rw [reportErrors]
      split_ifs <;> simp

theorem reportErrors_all (count : Int) (hc : count ≠ 0) (errs : List (Option Err)) :
    (reportErrors count errs).1 = errs.filterMap id := by
  induction errs with
  | nil => simp [reportErrors]
  | cons a t ih =>
    cases a with
    | none => rw [reportErrors, ih]; simp
    | some e => rw [reportErrors, if_neg hc]; simp [ih]

theorem reportErrors_first (errs : List (Option Err)) :
    (reportErrors 0 errs).1 = (errs.filterMap id).take 1 := by
  induction errs with
  | nil => simp [reportErrors]
  | cons a t ih =>
    cases a with
    | none => rw [reportErrors, ih]; simp
    | some e => rw [reportErrors, if_pos rfl]; simp

/-- C13: for every list of per-connection outcomes and completed-request
count `c` at report time: if `c > 0` the errors printed are exactly the
non-absent outcomes, in connection order; if `c = 0` only the first
non-absent outcome is printed; and the failure flag is set if and only if at
least one outcome holds an error. -/
theorem reportErrors_spec (c : Int) (errs : List (Option Err)) :
    (0 < c → (reportErrors c errs).1 = errs.filterMap id)
    ∧ (c = 0 → (reportErrors c errs).1 = (errs.filterMap id).take 1)
    ∧ ((reportErrors c errs).2 = true ↔ ∃ e, some e ∈ errs) := by
  refine ⟨fun h => reportErrors_all c (by omega) errs, ?_, reportErrors_die c errs⟩
  intro h
  subst h
  exact reportErrors_first errs

/-- Witness for C13: the outcomes absent, EOF, absent, "invalid server
response", with 3 requests completed and with none. -/
theorem reportErrors_spec_witness :
    reportErrors 3 [none, some .eof, none, some .invalidServerResponse]
      = ([.eof, .invalidServerResponse], true)
    ∧ reportErrors 0 [none, some .eof, none, some .invalidServerResponse] = ([.eof], true)
    ∧ ((0 < (3 : Int) → (reportErrors 3 [none, some Err.eof, none,
          some Err.invalidServerResponse]).1
          = [none, some Err.eof, none, some Err.invalidServerResponse].filterMap id)
      ∧ ((3 : Int) = 0 → (reportErrors 3 [none, some Err.eof, none,
          some Err.invalidServerResponse]).1
          = ([none, some Err.eof, none, some Err.invalidServerResponse].filterMap id).take 1)
      ∧ ((reportErrors 3 [none, some Err.eof, none, some Err.invalidServerResponse]).2 = true
          ↔ ∃ e, some e ∈ [none, some Err.eof, none, some Err.invalidServerResponse])) :=
  ⟨by decide, by decide,
    reportErrors_spec 3 [none, some .eof, none, some .invalidServerResponse]⟩

/-- C11 fails as stated, in both directions.  When the first connection
cannot be established `Bench` prints the error and returns, with no call of
`os.Exit`; and in CSV mode an outcome with an error makes `Bench` call
`os.Exit(1)` although no request completed. -/
theorem benchEnding_not_spec :
    (benchEnding 0 false false (some .eof) [] [] 0 = some .returns
      ∧ specNonZeroExit (some .eof) [] 0)
    ∧ (benchEnding 0 true false none [[], [-1]] [none, some .eof] 0 = some (.exits 1)
      ∧ ¬ specNonZeroExit none [none, some .eof] 0) := by
  refine ⟨⟨by decide, Or.inr rfl⟩, by decide, ?_⟩
  intro h
  rcases h with ⟨_, h⟩ | h
  · exact absurd h (by decide)
  · exact absurd h (by decide)

/-- C11, amended: whenever the final report is completed (CSV mode, quiet
mode, or a histogram loop that ends), `Bench` calls `os.Exit(1)` if and only
if the first connection was established and at least one connection's
outcome holds an error, whatever the completed-request count; in every other
such case it returns.  When the first connection cannot be established it
returns. -/
theorem benchEnding_spec (fuel : Nat) (csv quiet : Bool) (dial0 : Option Err)
    (durs : List (List Int)) (errs : List (Option Err)) (count : Int)
    (hreport : csv = true ∨ quiet = true ∨ (histogram fuel durs).2 = true) :
    (benchEnding fuel csv quiet dial0 durs errs count = some (.exits 1)
      ↔ dial0 = none ∧ ∃ e, some e ∈ errs)
    ∧ (¬ (dial0 = none ∧ ∃ e, some e ∈ errs) →
        benchEnding fuel csv quiet dial0 durs errs count = some .returns) := by
  have hfinal : finalReport fuel csv quiet durs errs count = some (reportErrors count errs) := by
    unfold finalReport
    rcases hreport with h | h | h
    · simp [h]
    · simp [h]
    · simp [h]
  cases dial0 with
  | some e => simp [benchEnding]
  | none =>
    have hdie := reportErrors_die count errs
    simp only [benchEnding, hfinal, true_and]
    by_cases hd : (reportErrors count errs).2 = true
    · have := hdie.mp hd
      simp [hd, this]
    · have hn : ¬ ∃ e, some e ∈ errs := fun h => hd (hdie.mpr h)
      simp [hd, hn]

/-- Witness for C11, amended: in CSV mode, the second of two clients failed
to connect and one request completed. -/
theorem benchEnding_spec_witness :
    (benchEnding 0 true false none [[1000], [-1]] [none, some .eof] 1 = some (.exits 1)
      ↔ (none : Option Err) = none ∧ ∃ e, some e ∈ [none, some Err.eof])
    ∧ (¬ ((none : Option Err) = none ∧ ∃ e, some e ∈ [none, some Err.eof]) →
        benchEnding 0 true false none [[1000], [-1]] [none, some .eof] 1 = some .returns) :=
  benchEnding_spec 0 true false none [[1000], [-1]] [none, some .eof] 1 (Or.inl rfl)

/-! ### One batch of a worker -/

/-- C14 fails as stated for the payload-byte counter: the counter is
increased before the write (line 152), so a batch of 14 bytes whose write
fails leaves it at 14, whereas no batch completed before it. -/
theorem workerStep_failed_payload :
    (workerStep 1 ⟨14, some .eof, none, 0, 0⟩ (initWorker true 1 none) initShared).2.totalPayload
      = 14
    ∧ (workerStep 1 ⟨14, some .eof, none, 0, 0⟩ (initWorker true 1 none) initShared).2
      ≠ initShared := by
  decide

/-- C14, amended: when a batch fails at the write or at the reply-decoding
step, the batch changes no latency slot and none of the counters of
cumulative duration, completed count and last-completion timestamp; the
payload-byte counter has the byte count of the failed batch added; the worker
returns with the error as its outcome, and no later turn of the worker
changes a slot or a counter, so the slots of the failed batch and of all
later batches stay at the sentinel. -/
theorem workerStep_failed (pipeline : Int) (b : BatchEnv) (w : Worker) (sh : Shared)
    (hrun : w.finished = false) (hconn : w.conn = true) (hloop : w.i < w.crequests)
    (hfail : b.writeErr ≠ none ∨ b.readErr ≠ none) :
    (workerStep pipeline b w sh).1.slots = w.slots
    ∧ (workerStep pipeline b w sh).2.duration = sh.duration
    ∧ (workerStep pipeline b w sh).2.count = sh.count
    ∧ (workerStep pipeline b w sh).2.tstop = sh.tstop
    ∧ (workerStep pipeline b w sh).2.totalPayload = sh.totalPayload + (b.bytes : Int)
    ∧ (workerStep pipeline b w sh).1.finished = true
    ∧ ((workerStep pipeline b w sh).1.err = b.writeErr
        ∨ (b.writeErr = none ∧ (workerStep pipeline b w sh).1.err = b.readErr))
    ∧ (workerStep pipeline b w sh).1.err ≠ none
    ∧ (∀ (b2 : BatchEnv) (sh2 : Shared),
        workerStep pipeline b2 (workerStep pipeline b w sh).1 sh2
          = ((workerStep pipeline b w sh).1, sh2)) := by
  unfold workerStep
  simp only [hrun, hconn, hloop, Bool.false_eq_true, if_false, Bool.not_true, if_true]
  cases hw : b.writeErr with
  | some e => simp
  | none =>
    cases hr : b.readErr with
    | some e => simp
    | none => simp [hw, hr] at hfail

/-- Witness for C14, amended: the second batch of a worker fails at the
reply-decoding step. -/
theorem workerStep_failed_witness :
    (workerStep 1 ⟨14, none, some .eof, 5, 9⟩ ⟨true, 2, 1, [700, -1], false, none⟩
        ⟨14, 700, 1, 800⟩).1.slots = [700, -1]
    ∧ (workerStep 1 ⟨14, none, some .eof, 5, 9⟩ ⟨true, 2, 1, [700, -1], false, none⟩
        ⟨14, 700, 1, 800⟩).2 = ⟨28, 700, 1, 800⟩ := by
  have h := workerStep_failed 1 ⟨14, none, some .eof, 5, 9⟩ ⟨true, 2, 1, [700, -1], false, none⟩
    ⟨14, 700, 1, 800⟩ rfl rfl (by decide) (Or.inr (by decide))
  exact ⟨h.1, by decide⟩

/-! ### The header of the report -/

/-- C15, at the failing input: `Requests = 2`, `Clients = 2`, the second
client fails to connect and the first completes its request of 14 bytes.
The counters end at `count = 1` and `totalPayload = 14`; the header prints
`2 requests completed` and `7 bytes payload`, not 1 and 14. -/
theorem reportHeader_shows_configured :
    clientPlan 2 2 = [1, 1]
    ∧ (runTurns 1 [(0, ⟨14, none, none, 1000, 2000⟩), (0, ⟨0, none, none, 0, 0⟩),
          (1, ⟨0, none, none, 0, 0⟩)]
        (initWorkers [(true, 1), (false, 1)]) initShared).2 = ⟨14, 1000, 1, 2000⟩
    ∧ reportHeader 2 2 1 14 = some ⟨2, 2, 7⟩ := by
  decide

/-! ### Encoded commands read back by the decoder -/

theorem bulkFrames_wellFormed (args : List (List UInt8)) :
    WellFormed args.length (args.map bulkFrame).flatten := by
  induction args with
  | nil => exact WellFormed.none
  | cons a t ih =>
    have h := WellFormed.bulk a (t.map bulkFrame).flatten t.length ih
    have e : ((a :: t).map bulkFrame).flatten
        = 36 :: formatInt (a.length : Int) ++ [13, 10] ++ a ++ [13, 10]
          ++ (t.map bulkFrame).flatten := by
      simp [bulkFrame]
    rw [e]
    exact h

theorem commandFrame_wellFormed (args : List (List UInt8)) (tail : List UInt8) (k : Nat)
    (htail : WellFormed k tail) : WellFormed (k + 1) (commandFrame args ++ tail) := by
  have h := WellFormed.array args.length (args.map bulkFrame).flatten tail k
    (bulkFrames_wellFormed args) htail
  have e : commandFrame args ++ tail
      = 42 :: formatInt (args.length : Int) ++ [13, 10] ++ (args.map bulkFrame).flatten
        ++ tail := by
    simp [commandFrame]
  rw [e]
  exact h

theorem commands_wellFormed (cmds : List (List (List UInt8))) :
    WellFormed cmds.length (cmds.map (AppendCommand [])).flatten := by
  induction cmds with
  | nil => exact WellFormed.none
  | cons c t ih =>
    have h := commandFrame_wellFormed c _ t.length ih
    simpa [AppendCommand_eq] using h

/-- C16: for every list of string arguments `args` (of any content, the
empty list included) whose encoding is a byte slice (fewer than `2^63`
bytes) and every trailing byte sequence `rest`, `readResp` with count 1 on
`AppendCommand(nil, args...) ++ rest` returns `nil` and leaves exactly `rest`
unread; and the concatenation of `m` encoded commands, followed by `rest`,
is consumed as exactly `m` replies. -/
theorem readResp_AppendCommand :
    (∀ (args : List (List UInt8)) (rest : List UInt8),
      (AppendCommand [] args).length < 2 ^ 63 →
      readResp (AppendCommand [] args ++ rest) 1 = some (.ok, rest))
    ∧ (∀ (cmds : List (List (List UInt8))) (rest : List UInt8),
      ((cmds.map (AppendCommand [])).flatten).length < 2 ^ 63 →
      readResp ((cmds.map (AppendCommand [])).flatten ++ rest) (cmds.length : Int)
        = some (.ok, rest)) := by
  have multi : ∀ (cmds : List (List (List UInt8))) (rest : List UInt8),
      ((cmds.map (AppendCommand [])).flatten).length < 2 ^ 63 →
      readResp ((cmds.map (AppendCommand [])).flatten ++ rest) (cmds.length : Int)
        = some (.ok, rest) := by
    intro cmds rest hsize
    exact readRespFuel_wellFormed (commands_wellFormed cmds) hsize rest _ (Nat.lt_succ_self _)
  refine ⟨?_, multi⟩
  intro args rest hsize
  have h := multi [args] rest (by simpa using hsize)
  simpa using h

/-- Witness for C16: the command `SET k "a\r\nb"`, whose last argument holds
a line terminator, then `PING`, followed by the bytes `xyz`. -/
theorem readResp_AppendCommand_witness :
    readResp (AppendCommand [] [[83, 69, 84], [107], [97, 13, 10, 98]] ++ [120, 121, 122]) 1
      = some (.ok, [120, 121, 122])
    ∧ readResp (([[[83, 69, 84], [107], [97, 13, 10, 98]], [[80, 73, 78, 71]]].map
          (AppendCommand [])).flatten ++ [120, 121, 122])
        (([[[83, 69, 84], [107], [97, 13, 10, 98]], [[80, 73, 78, 71]]] :
          List (List (List UInt8))).length : Int)
      = some (.ok, [120, 121, 122]) :=
  ⟨readResp_AppendCommand.1 [[83, 69, 84], [107], [97, 13, 10, 98]] [120, 121, 122]
      (by decide),
    readResp_AppendCommand.2 [[[83, 69, 84], [107], [97, 13, 10, 98]], [[80, 73, 78, 71]]]
      [120, 121, 122] (by decide)⟩

/-! ### The loop of a worker -/

theorem storeSlots_fill (v : Int) (m t : Nat) (pre : List Int) :
    storeSlots v m pre.length (pre ++ List.replicate (m + t) sentinel)
      = pre ++ List.replicate m v ++ List.replicate t sentinel := by
  induction m generalizing pre with
  | zero => simp [storeSlots]
  | succ m ih =>
    have e1 : (pre ++ List.replicate (m + 1 + t) sentinel).set pre.length v
        = (pre ++ [v]) ++ List.replicate (m + t) sentinel := by
      have : m + 1 + t = (m + t) + 1 := by omega
      rw [this, List.replicate_succ, List.set_append_right _ _ (le_refl _)]
      simp
    have e2 : pre.length + 1 = (pre ++ [v]).length := by simp
    rw [storeSlots, e1, e2, ih (pre ++ [v])]
    simp [List.replicate_succ]

theorem batchSize_bounds {pipeline r i : Int} (hP : 1 ≤ pipeline) (hlt : i < r) :
    1 ≤ batchSize pipeline r i ∧ batchSize pipeline r i ≤ pipeline
    ∧ i + batchSize pipeline r i ≤ r
    ∧ (r - i).toNat = (batchSize pipeline r i).toNat + (r - (i + pipeline)).toNat
    ∧ (i + pipeline ≤ r → batchSize pipeline r i = pipeline)
    ∧ (r < i + pipeline → batchSize pipeline r i = r - i) := by
  unfold batchSize
  split_ifs with h
  · refine ⟨by omega, by omega, by omega, by omega, by omega, fun _ => rfl⟩
  · refine ⟨by omega, by omega, by omega, by omega, fun _ => rfl, by omega⟩

/-- A batch that succeeds, on a row whose slots from `i` on are at the
sentinel: the `n` slots from `i` are set to `stop / n`, `i` moves on by
the pipeline depth and the counters take the batch in. -/
theorem workerStep_ok (pipeline r i : Int) (pre : List Int) (err : Option Err) (b : BatchEnv)
    (sh : Shared) (hP : 1 ≤ pipeline) (hlt : i < r) (hpre : pre.length = i.toNat)
    (hw : b.writeErr = none) (hr : b.readErr = none) :
    workerStep pipeline b
        ⟨true, r, i, pre ++ List.replicate (r - i).toNat sentinel, false, err⟩ sh
      = (⟨true, r, i + pipeline,
            (pre ++ List.replicate (batchSize pipeline r i).toNat
              (Int.tdiv b.stop (batchSize pipeline r i)))
              ++ List.replicate (r - (i + pipeline)).toNat sentinel, false, err⟩,
         ⟨sh.totalPayload + (b.bytes : Int), sh.duration + b.stop,
            sh.count + batchSize pipeline r i, b.since⟩) := by
  obtain ⟨_, _, _, hsplit, _, _⟩ := batchSize_bounds hP hlt
  have hs : storeSlots (Int.tdiv b.stop (batchSize pipeline r i)) (batchSize pipeline r i).toNat
        i.toNat (pre ++ List.replicate (r - i).toNat sentinel)
      = (pre ++ List.replicate (batchSize pipeline r i).toNat
            (Int.tdiv b.stop (batchSize pipeline r i)))
          ++ List.replicate (r - (i + pipeline)).toNat sentinel := by
    rw [← hpre, hsplit]
    exact storeSlots_fill _ _ _ _
  unfold workerStep
  simp only [Bool.false_eq_true, if_false, Bool.not_true, hlt, if_true, hw, hr, hs]

/-- The loop of a worker whose batches all succeed, from a state in which
the slots from `i` on are at the sentinel: the worker returns without error,
and the batches run fill the slots left, in order. -/
theorem workerLoop_ok (pipeline r : Int) (env : Nat → BatchEnv) (hP : 1 ≤ pipeline)
    (henv : ∀ k, (env k).writeErr = none ∧ (env k).readErr = none) :
    ∀ (fuel k : Nat) (i : Int) (pre : List Int) (sh : Shared) (err : Option Err),
      0 ≤ i → (i < r → pre.length = i.toNat) → (r - i).toNat + 2 ≤ fuel →
      ∃ w2 sh2 tr,
        workerLoop pipeline env fuel k
            ⟨true, r, i, pre ++ List.replicate (r - i).toNat sentinel, false, err⟩ sh
          = some (w2, sh2, tr)
        ∧ w2.finished = true ∧ w2.err = err
        ∧ w2.slots = pre ++ expectedSlots env k tr
        ∧ (∀ x ∈ tr, 1 ≤ x.2 ∧ x.2 ≤ pipeline)
        ∧ (∀ x ∈ tr.dropLast, x.2 = pipeline)
        ∧ (r ≤ i → tr = [])
        ∧ (i ≤ r → covers i tr r)
        ∧ (i ≤ r → (tr.map Prod.snd).sum = r - i)
        ∧ (i ≤ r → r - i ≤ (tr.length : Int) * pipeline
            ∧ (tr.length : Int) * pipeline < r - i + pipeline)
        ∧ sh2.count = sh.count + (tr.map Prod.snd).sum := by
  intro fuel
  induction fuel with
  | zero => intro k i pre sh err _ _ hf; omega
  | succ fuel ih =>
    intro k i pre sh err hi hpre hf
    rw [workerLoop]
    simp only [Bool.false_eq_true, if_false]
    by_cases hlt : i < r
    · -- one batch, then the rest of the loop
      obtain ⟨hn1, hnP, hnr, _, hfull, hlast⟩ := batchSize_bounds hP hlt
      have hstep := workerStep_ok pipeline r i pre err (env k) sh hP hlt (hpre hlt)
        (henv k).1 (henv k).2
      have hbatch : batchOf pipeline
          ⟨true, r, i, pre ++ List.replicate (r - i).toNat sentinel, false, err⟩
          = some (i, batchSize pipeline r i) := by
        simp [batchOf, hlt]
      have hlen : i + pipeline < r →
          (pre ++ List.replicate (batchSize pipeline r i).toNat
            (Int.tdiv (env k).stop (batchSize pipeline r i))).length = (i + pipeline).toNat := by
        intro h
        rw [List.length_append, List.length_replicate, hpre hlt, hfull (by omega)]
        omega
      obtain ⟨w2, sh2, tr, e, h1, h2, h3, h4, h5, h6, h7, h8, h9, h10⟩ :=
        ih (k + 1) (i + pipeline) _ (workerStep pipeline (env k)
            ⟨true, r, i, pre ++ List.replicate (r - i).toNat sentinel, false, err⟩ sh).2 err
          (by omega) hlen (by omega)
      rw [hstep] at e h10
      rw [hstep]
      simp only at e h10 ⊢
      rw [e, hbatch]
      refine ⟨w2, sh2, (i, batchSize pipeline r i) :: tr, rfl, h1, h2, ?_, ?_, ?_, ?_, ?_, ?_,
        ?_, ?_⟩
      · rw [h3]
        simp [expectedSlots]
      · intro x hx
        simp only [List.mem_cons] at hx
        rcases hx with hx | hx
        · rw [hx]; exact ⟨hn1, hnP⟩
        · exact h4 x hx
      · intro x hx
        cases tr with
        | nil => simp at hx
        | cons y t =>
          rw [List.dropLast_cons_of_ne_nil (List.cons_ne_nil y t)] at hx
          simp only [List.mem_cons] at hx
          rcases hx with hx | hx
          · rw [hx]
            apply hfull
            by_contra hc
            have := h6 (by omega)
            exact absurd this (List.cons_ne_nil y t)
          · exact h5 x hx
      · intro h; omega
      · intro _
        refine ⟨rfl, ?_⟩
        by_cases hc : i + pipeline ≤ r
        · rw [hfull hc]; exact h7 hc
        · rw [h6 (by omega), hlast (by omega)]
          show i + (r - i) = r
          omega
      · intro _
        by_cases hc : i + pipeline ≤ r
        · simp only [List.map_cons, List.sum_cons, h8 hc, hfull hc]
          omega
        · rw [h6 (by omega), hlast (by omega)]
          simp
      · intro _
        by_cases hc : i + pipeline ≤ r
        · obtain ⟨a1, a2⟩ := h9 hc
          simp only [List.length_cons]
          push_cast
          constructor <;> linarith
        · rw [h6 (by omega)]
          simp only [List.length_cons, List.length_nil]
          push_cast
          constructor <;> omega
      · rw [h10]
        simp only [List.map_cons, List.sum_cons]
        omega
    · -- the loop condition fails: the worker returns
      have hstep : workerStep pipeline (env k)
          ⟨true, r, i, pre ++ List.replicate (r - i).toNat sentinel, false, err⟩ sh
          = (⟨true, r, i, pre ++ List.replicate (r - i).toNat sentinel, true, err⟩, sh) := by
        simp [workerStep, hlt]
      have hbatch : batchOf pipeline
          ⟨true, r, i, pre ++ List.replicate (r - i).toNat sentinel, false, err⟩ = none := by
        simp [batchOf, hlt]
      obtain ⟨f, rfl⟩ : ∃ f, fuel = f + 1 := ⟨fuel - 1, by omega⟩
      rw [hstep, hbatch]
      simp only [workerLoop, if_true]
      have hz : (r - i).toNat = 0 := by omega
      refine ⟨_, _, [], rfl, rfl, rfl, ?_, ?_, ?_, ?_, ?_, ?_, ?_, ?_⟩
      · simp [hz, expectedSlots]
      · simp
      · simp
      · intro _; rfl
      · intro h
        show i = r
        omega
      · intro h; simp; omega
      · intro h; simp; omega
      · simp

/-! ### The completed count against the latency slots -/

theorem completed_cons (row : List Int) (rows : List (List Int)) :
    completed (row :: rows) = row.filter (fun d => d ≠ -1) ++ completed rows := by
  simp [completed]

theorem filter_wellFilled (pre : List Int) (m : Nat) (hpre : sentinel ∉ pre) :
    (pre ++ List.replicate m sentinel).filter (fun d => d ≠ -1) = pre := by
  have h1 : pre.filter (fun d => decide (d ≠ -1)) = pre := by
    rw [List.filter_eq_self]
    intro a ha
    have : a ≠ sentinel := fun e => hpre (e ▸ ha)
    simpa [sentinel] using this
  have h2 : (List.replicate m sentinel).filter (fun d => decide (d ≠ -1)) = [] := by
    rw [List.filter_eq_nil_iff]
    intro a ha
    have := List.eq_of_mem_replicate ha
    simp [this, sentinel]
  rw [List.filter_append, h1, h2, List.append_nil]

/-- One turn of a worker keeps the invariant of its state, and adds to the
completed count the number of slots it takes off the sentinel. -/
theorem workerStep_wellFilled (pipeline : Int) (b : BatchEnv) (w : Worker) (sh : Shared)
    (hP : 1 ≤ pipeline) (hstop : 0 ≤ b.stop) (hw : w.wellFilled) :
    (workerStep pipeline b w sh).1.wellFilled
    ∧ (workerStep pipeline b w sh).2.count
        + ((w.slots.filter (fun d => d ≠ -1)).length : Int)
      = sh.count + (((workerStep pipeline b w sh).1.slots.filter (fun d => d ≠ -1)).length : Int)
    := by
  obtain ⟨conn, r, i, slots, fin, err⟩ := w
  obtain ⟨pre, hslots, hpre, hi, hlen⟩ := hw
  simp only at hslots hi hlen
  have hsame : ∀ (f : Bool) (e : Option Err), Worker.wellFilled ⟨conn, r, i, slots, f, e⟩ :=
    fun f e => ⟨pre, hslots, hpre, hi, hlen⟩
  cases fin with
  | true => exact ⟨by simpa [workerStep] using hsame true err, by simp [workerStep]⟩
  | false =>
    cases conn with
    | false => exact ⟨by simpa [workerStep] using hsame true err, by simp [workerStep]⟩
    | true =>
      by_cases hlt : i < r
      · cases hwe : b.writeErr with
        | some e =>
          exact ⟨by simpa [workerStep, hlt, hwe] using hsame true (some e),
            by simp [workerStep, hlt, hwe]⟩
        | none =>
          cases hre : b.readErr with
          | some e =>
            exact ⟨by simpa [workerStep, hlt, hwe, hre] using hsame true (some e),
              by simp [workerStep, hlt, hwe, hre]⟩
          | none =>
            obtain ⟨hn1, _, _, _, hfull, _⟩ := batchSize_bounds hP hlt
            have hv : 0 ≤ Int.tdiv b.stop (batchSize pipeline r i) :=
              Int.tdiv_nonneg hstop (by omega)
            have hpre2 : sentinel ∉ pre ++ List.replicate (batchSize pipeline r i).toNat
                (Int.tdiv b.stop (batchSize pipeline r i)) := by
              simp only [List.mem_append, not_or]
              refine ⟨hpre, fun hmem => ?_⟩
              have := List.eq_of_mem_replicate hmem
              unfold sentinel at this
              omega
            subst hslots
            rw [workerStep_ok pipeline r i pre err b sh hP hlt (hlen hlt) hwe hre]
            refine ⟨⟨_, rfl, hpre2, by show 0 ≤ i + pipeline; omega, ?_⟩, ?_⟩
            · intro h
              change i + pipeline < r at h
              show (pre ++ List.replicate (batchSize pipeline r i).toNat
                (Int.tdiv b.stop (batchSize pipeline r i))).length = (i + pipeline).toNat
              rw [List.length_append, List.length_replicate, hlen hlt, hfull (by omega)]
              omega
            · simp only
              rw [filter_wellFilled _ _ hpre, filter_wellFilled _ _ hpre2, List.length_append,
                List.length_replicate]
              push_cast
              omega
      · exact ⟨by simpa [workerStep, hlt] using hsame true err, by simp [workerStep, hlt]⟩

theorem stepAt_wellFilled (pipeline : Int) (b : BatchEnv) (hP : 1 ≤ pipeline)
    (hstop : 0 ≤ b.stop) :
    ∀ (ws : List Worker) (c : Nat) (sh : Shared), (∀ w ∈ ws, w.wellFilled) →
      (∀ w ∈ (stepAt (workerStep pipeline b) c ws sh).1, w.wellFilled)
      ∧ (stepAt (workerStep pipeline b) c ws sh).2.count
          + ((completed (tableOf ws)).length : Int)
        = sh.count
          + ((completed (tableOf (stepAt (workerStep pipeline b) c ws sh).1)).length : Int) := by
  intro ws
  induction ws with
  | nil => intro c sh _; simp [stepAt]
  | cons w t ih =>
    intro c sh hall
    have hw := hall w (List.mem_cons_self _ _)
    have ht : ∀ x ∈ t, x.wellFilled := fun x hx => hall x (List.mem_cons_of_mem _ hx)
    cases c with
    | zero =>
      obtain ⟨h1, h2⟩ := workerStep_wellFilled pipeline b w sh hP hstop hw
      refine ⟨?_, ?_⟩
      · intro x hx
        simp only [stepAt, List.mem_cons] at hx
        rcases hx with hx | hx
        · rw [hx]; exact h1
        · exact ht x hx
      · simp only [stepAt, tableOf, List.map_cons, completed_cons, List.length_append]
        push_cast
        linarith
    | succ c =>
      obtain ⟨h1, h2⟩ := ih c sh ht
      refine ⟨?_, ?_⟩
      · intro x hx
        simp only [stepAt, List.mem_cons] at hx
        rcases hx with hx | hx
        · rw [hx]; exact hw
        · exact h1 x hx
      · simp only [stepAt, tableOf, List.map_cons, completed_cons, List.length_append]
        simp only [tableOf] at h2
        push_cast
        linarith

theorem runTurns_wellFilled (pipeline : Int) (hP : 1 ≤ pipeline) :
    ∀ (turns : List (Nat × BatchEnv)) (ws : List Worker) (sh : Shared),
      (∀ t ∈ turns, 0 ≤ t.2.stop) → (∀ w ∈ ws, w.wellFilled) →
      sh.count = ((completed (tableOf ws)).length : Int) →
      (runTurns pipeline turns ws sh).2.count
        = ((completed (tableOf (runTurns pipeline turns ws sh).1)).length : Int) := by
  intro turns
  induction turns with
  | nil => intro ws sh _ _ h; simpa [runTurns] using h
  | cons t rest ih =>
    intro ws sh hstop hall hcount
    obtain ⟨c, b⟩ := t
    have hb : 0 ≤ b.stop := hstop (c, b) (List.mem_cons_self _ _)
    obtain ⟨h1, h2⟩ := stepAt_wellFilled pipeline b hP hb ws c sh hall
    rw [runTurns]
    exact ih _ _ (fun x hx => hstop x (List.mem_cons_of_mem _ hx)) h1 (by linarith)

theorem initWorkers_wellFilled (plan : List (Bool × Int)) :
    (∀ w ∈ initWorkers plan, w.wellFilled)
    ∧ completed (tableOf (initWorkers plan)) = [] := by
  induction plan with
  | nil => simp [initWorkers, tableOf, completed]
  | cons p t ih =>
    obtain ⟨ih1, ih2⟩ := ih
    have hw : (initWorker p.1 p.2 none).wellFilled :=
      ⟨[], by simp [initWorker], by simp, le_refl _, fun _ => rfl⟩
    refine ⟨?_, ?_⟩
    · intro w hw'
      simp only [initWorkers, List.map_cons, List.mem_cons] at hw'
      rcases hw' with h | h
      · rw [h]; exact hw
      · exact ih1 w h
    · have hf := filter_wellFilled [] p.2.toNat (by simp)
      simp only [List.nil_append] at hf
      simp only [initWorkers, List.map_cons, tableOf, completed_cons]
      simp only [initWorkers, tableOf] at ih2
      rw [ih2]
      simpa [initWorker] using hf

/-- C17: from the initial state (every latency slot at the sentinel,
completed count 0), with a pipeline depth `P ≥ 1`, after any sequence of
turns of the workers with elapsed times that are not negative, successful
or failing, on any clients (a client with no connection only returns), the
shared completed-request count equals the number of latency slots that
differ from the sentinel, and the denominator `count` of the histogram at
any threshold equals it. -/
theorem count_eq_completed (pipeline : Int) (plan : List (Bool × Int))
    (turns : List (Nat × BatchEnv)) (hP : 1 ≤ pipeline) (hstop : ∀ t ∈ turns, 0 ≤ t.2.stop) :
    (runTurns pipeline turns (initWorkers plan) initShared).2.count
      = ((completed (tableOf (runTurns pipeline turns (initWorkers plan) initShared).1)).length
          : Int)
    ∧ ∀ limit : Int,
        (scanTable limit (tableOf (runTurns pipeline turns (initWorkers plan) initShared).1)
          (0, 0)).2
        = (runTurns pipeline turns (initWorkers plan) initShared).2.count := by
  obtain ⟨h1, h2⟩ := initWorkers_wellFilled plan
  have h := runTurns_wellFilled pipeline hP turns (initWorkers plan) initShared hstop h1
    (by rw [h2]; rfl)
  refine ⟨h, fun limit => ?_⟩
  rw [scanTable_eq, h]
  simp

/-- Witness for C17: two clients of 2 requests each and pipeline depth 2;
the first completes its batch, the second has no connection. -/
theorem count_eq_completed_witness :
    (runTurns 2 [(0, ⟨28, none, none, 9, 9⟩), (1, ⟨0, none, none, 0, 0⟩)]
        (initWorkers [(true, 2), (false, 2)]) initShared)
      = ([⟨true, 2, 2, [4, 4], false, none⟩, ⟨false, 2, 0, [-1, -1], true, none⟩],
          ⟨28, 9, 2, 9⟩)
    ∧ ((runTurns 2 [(0, ⟨28, none, none, 9, 9⟩), (1, ⟨0, none, none, 0, 0⟩)]
          (initWorkers [(true, 2), (false, 2)]) initShared).2.count
        = ((completed (tableOf (runTurns 2 [(0, ⟨28, none, none, 9, 9⟩),
              (1, ⟨0, none, none, 0, 0⟩)]
            (initWorkers [(true, 2), (false, 2)]) initShared).1)).length : Int)
      ∧ ∀ limit : Int,
          (scanTable limit (tableOf (runTurns 2 [(0, ⟨28, none, none, 9, 9⟩),
              (1, ⟨0, none, none, 0, 0⟩)]
            (initWorkers [(true, 2), (false, 2)]) initShared).1) (0, 0)).2
          = (runTurns 2 [(0, ⟨28, none, none, 9, 9⟩), (1, ⟨0, none, none, 0, 0⟩)]
              (initWorkers [(true, 2), (false, 2)]) initShared).2.count) :=
  ⟨by decide,
    count_eq_completed 2 [(true, 2), (false, 2)]
      [(0, ⟨28, none, none, 9, 9⟩), (1, ⟨0, none, none, 0, 0⟩)] (by decide) (by decide)⟩

theorem expectedSlots_no_sentinel (env : Nat → BatchEnv) (hstop : ∀ k, 0 ≤ (env k).stop) :
    ∀ (tr : List (Int × Int)) (k : Nat), (∀ x ∈ tr, 1 ≤ x.2) →
      sentinel ∉ expectedSlots env k tr := by
  intro tr
  induction tr with
  | nil => intro k _; simp [expectedSlots]
  | cons x t ih =>
    intro k hx
    obtain ⟨a, n⟩ := x
    have hn : 1 ≤ n := hx (a, n) (List.mem_cons_self _ _)
    have hv : 0 ≤ Int.tdiv (env k).stop n := Int.tdiv_nonneg (hstop k) (by omega)
    simp only [expectedSlots, List.mem_append, not_or]
    refine ⟨?_, ih (k + 1) (fun y hy => hx y (List.mem_cons_of_mem _ hy))⟩
    intro hmem
    have := List.eq_of_mem_replicate hmem
    unfold sentinel at this
    omega

theorem expectedSlots_length (env : Nat → BatchEnv) :
    ∀ (tr : List (Int × Int)) (k : Nat), (∀ x ∈ tr, 1 ≤ x.2) →
      ((expectedSlots env k tr).length : Int) = (tr.map Prod.snd).sum := by
  intro tr
  induction tr with
  | nil => intro k _; simp [expectedSlots]
  | cons x t ih =>
    intro k hx
    obtain ⟨a, n⟩ := x
    have hn : 1 ≤ n := hx (a, n) (List.mem_cons_self _ _)
    simp only [expectedSlots, List.length_append, List.length_replicate, List.map_cons,
      List.sum_cons]
    push_cast
    rw [ih (k + 1) (fun y hy => hx y (List.mem_cons_of_mem _ hy))]
    omega

/-- C12: for every pipeline depth `P ≥ 1` and assigned request count
`r ≥ 0`, when the write and the decoding of every batch succeed, the worker
loop returns without error after `m` batches with `r ≤ m*P < r + P`, that
is `m = ceil(r/P)`; the sizes of the batches are between 1 and `P`, all
equal to `P` except possibly the last, and sum to `r`; the batches cover the
slot indices `0..r-1` in order without gap or overlap; the slots of a batch
of size `n` with elapsed time `e` are set to `e / n`; with elapsed times
that are not negative no slot is left at the sentinel. -/
theorem workerLoop_batches (pipeline r : Int) (env : Nat → BatchEnv) (fuel : Nat) (sh : Shared)
    (hP : 1 ≤ pipeline) (hr : 0 ≤ r)
    (henv : ∀ k, (env k).writeErr = none ∧ (env k).readErr = none)
    (hfuel : r.toNat + 2 ≤ fuel) :
    ∃ w2 sh2 tr,
      workerLoop pipeline env fuel 0 (initWorker true r none) sh = some (w2, sh2, tr)
      ∧ w2.finished = true ∧ w2.err = none
      ∧ (r ≤ (tr.length : Int) * pipeline ∧ (tr.length : Int) * pipeline < r + pipeline)
      ∧ (∀ x ∈ tr, 1 ≤ x.2 ∧ x.2 ≤ pipeline)
      ∧ (∀ x ∈ tr.dropLast, x.2 = pipeline)
      ∧ (tr.map Prod.snd).sum = r
      ∧ covers 0 tr r
      ∧ w2.slots = expectedSlots env 0 tr
      ∧ (w2.slots.length : Int) = r
      ∧ ((∀ k, 0 ≤ (env k).stop) → sentinel ∉ w2.slots)
      ∧ sh2.count = sh.count + r := by
  obtain ⟨w2, sh2, tr, e, h1, h2, h3, h4, h5, _, h7, h8, h9, h10⟩ :=
    workerLoop_ok pipeline r env hP henv fuel 0 0 [] sh none (le_refl _) (fun _ => rfl)
      (by simpa using hfuel)
  have hinit : initWorker true r none
      = ⟨true, r, 0, [] ++ List.replicate (r - 0).toNat sentinel, false, none⟩ := by
    simp [initWorker]
  have hsum : (tr.map Prod.snd).sum = r := by simpa using h8 hr
  have hslots : w2.slots = expectedSlots env 0 tr := by simpa using h3
  refine ⟨w2, sh2, tr, by rw [hinit]; exact e, h1, h2, by simpa using h9 hr, h4, h5, hsum,
    h7 hr, hslots, ?_, ?_, by rw [h10, hsum]⟩
  · rw [hslots, expectedSlots_length env tr 0 (fun x hx => (h4 x hx).1), hsum]
  · intro hstop
    rw [hslots]
    exact expectedSlots_no_sentinel env hstop tr 0 (fun x hx => (h4 x hx).1)

/-- Witness for C12: 5 requests in batches of at most 2, each batch taking
7 ns: the batches are `(0, 2)`, `(2, 2)`, `(4, 1)` and the slots read
3, 3, 3, 3, 7. -/
theorem workerLoop_batches_witness :
    workerLoop 2 (fun _ => ⟨14, none, none, 7, 9⟩) 7 0 (initWorker true 5 none) initShared
      = some (⟨true, 5, 6, [3, 3, 3, 3, 7], true, none⟩, ⟨42, 21, 5, 9⟩,
          [(0, 2), (2, 2), (4, 1)])
    ∧ ∃ w2 sh2 tr,
      workerLoop 2 (fun _ => ⟨14, none, none, 7, 9⟩) 7 0 (initWorker true 5 none) initShared
        = some (w2, sh2, tr)
      ∧ w2.finished = true ∧ w2.err = none
      ∧ ((5 : Int) ≤ (tr.length : Int) * 2 ∧ (tr.length : Int) * 2 < 5 + 2)
      ∧ (∀ x ∈ tr, 1 ≤ x.2 ∧ x.2 ≤ 2)
      ∧ (∀ x ∈ tr.dropLast, x.2 = 2)
      ∧ (tr.map Prod.snd).sum = 5
      ∧ covers 0 tr 5
      ∧ w2.slots = expectedSlots (fun _ => ⟨14, none, none, 7, 9⟩) 0 tr
      ∧ (w2.slots.length : Int) = 5
      ∧ ((∀ _k : Nat, 0 ≤ (⟨14, none, none, 7, 9⟩ : BatchEnv).stop) → sentinel ∉ w2.slots)
      ∧ sh2.count = initShared.count + 5 :=
  ⟨by decide,
    workerLoop_batches 2 5 (fun _ => ⟨14, none, none, 7, 9⟩) 7 initShared (by decide)
      (by decide) (fun _ => ⟨rfl, rfl⟩) (by decide)⟩

end Redbench
